import Mathlib

/-!
Verification of the retrieval core of the book-chat server.

The development shallowly embeds the TypeScript sources:
  * `server/services/embeddings.ts` — chunker, processing pipeline, chunk cache,
    similarity search;
  * `server/services/openai.ts` — cosine similarity, normalized embeddings;
  * `server/storage.ts` — the in-memory persistence collaborator;
  * `server/index.ts` (routes part) — the document delete handler;
  * the hybrid-search variant — weighted fusion of semantic and keyword scores.

Strings are embedded as `List Char`, JS numbers used for scores as exact
rationals or reals, and the module-level mutable state (storage plus the chunk
cache) as an explicit `ServerSt` record threaded through the operations.
External I/O collaborators (the embedding provider, the chapter-title regex)
are abstracted as function parameters, so every theorem quantifies over them.
-/

namespace BookChat

/-- Whitespace characters as recognised by JS `String.prototype.trim` and the
regex class `\s` (the subset that can occur in markdown text handled here). -/
def isJsWhitespace (c : Char) : Bool :=
  c = ' ' || c = '\t' || c = '\n' || c = '\r' ||
  c = '\x0b' || c = '\x0c' || c = ' ' || c = '﻿'

/-- Line terminators, as used by the multiline anchors `^`/`$` and excluded by
the regex `.` class in JS. -/
def isLineTerm (c : Char) : Bool :=
  c = '\n' || c = '\r'

/-- JS `String.prototype.trim`: strip leading and trailing whitespace. -/
def jsTrim (l : List Char) : List Char :=
  ((l.dropWhile isJsWhitespace).reverse.dropWhile isJsWhitespace).reverse

/-- Accumulator loop for `lastIndexOf`: scan the text left to right, remember
the last index `i ≤ fromIdx` whose character equals `c`. -/
def lastIndexOfAux (c : Char) (fromIdx : Nat) : List Char → Nat → Int → Int
  | [], _, acc => acc
  | x :: xs, i, acc =>
      lastIndexOfAux c fromIdx xs (i + 1) (if i ≤ fromIdx && x = c then (i : Int) else acc)

/-- JS `text.lastIndexOf(ch, fromIdx)`: the largest index `i ≤ fromIdx` with
`text[i] = ch`, or `-1` when there is none. -/
def lastIndexOf (text : List Char) (ch : Char) (fromIdx : Nat) : Int :=
  lastIndexOfAux ch fromIdx text 0 (-1)

/-- JS `text.slice(s, e)` for `0 ≤ s ≤ e`: the characters in `[s, min e len)`. -/
def jsSlice (l : List Char) (s e : Nat) : List Char :=
  (l.take e).drop s

/-- A section heading record, as collected by the scan in
`chunkTextWithMetadata` (embeddings.ts lines 33-44). -/
structure Heading where
  position : Nat
  title : List Char
  level : Nat
  deriving DecidableEq, Repr

/-- The largest index of `l` holding a character that is not a line
terminator (used for the regex backtracking case below). -/
def lastNonTermIdx (l : List Char) : Option Nat :=
  match l.reverse.findIdx? (fun c => !(isLineTerm c)) with
  | some r => some (l.length - 1 - r)
  | none => none

/-- One attempt of the heading regex `/^(#{2,})\s+(.+)$/gm` at absolute
position `p` of the text, where `suffix` is the text from `p` on (the caller
guarantees `p` is at a line start).  Returns the heading (position, trimmed
title, level) and the number of characters consumed, i.e. the distance from
`p` to the regex `lastIndex` after the match.  The second branch realises the
regex backtracking when the greedy `\s+` run reaches the end of the text: the
engine gives characters back until `(.+)$` can still match, which happens at
the last non-line-terminator character inside the whitespace run. -/
def headingMatchAt (p : Nat) (suffix : List Char) : Option (Heading × Nat) :=
  let hashes := (suffix.takeWhile (fun c => c = '#')).length
  if hashes < 2 then none
  else
    let afterHash := suffix.drop hashes
    let ws := (afterHash.takeWhile isJsWhitespace).length
    if ws = 0 then none
    else
      match afterHash.drop ws with
      | c :: restAfter =>
          let title := (c :: restAfter).takeWhile (fun ch => !(isLineTerm ch))
          some (⟨p, jsTrim title, hashes⟩, hashes + ws + title.length)
      | [] =>
          let wsRun := afterHash.takeWhile isJsWhitespace
          match lastNonTermIdx (wsRun.drop 1) with
          | some d =>
              let title := (wsRun.drop (1 + d)).takeWhile (fun ch => !(isLineTerm ch))
              some (⟨p, jsTrim title, hashes⟩, hashes + 1 + d + title.length)
          | none => none

/-- Global scan of the heading regex: walk the text once, attempting a match
at every line start at or after the current `lastIndex`, and resume after each
match at its end.  `p` is the absolute position of `suffix`'s head and
`atLineStart` says whether `p` is a line start; the `rest.drop (consumed - 1)`
keeps `p` and the suffix aligned after a match.  The recursion is made
structural by a step budget: every step shortens the suffix by at least one
character (a match consumes at least one), so a budget of the suffix's length
is never exhausted and the budget-0 answer `[]` agrees with the empty-suffix
answer. -/
def scanHeadingsGo : Nat → Nat → List Char → Bool → List Heading
  | 0, _, _, _ => []
  | fuel + 1, p, suffix, atLineStart =>
      match suffix with
      | [] => []
      | c :: rest =>
          if atLineStart then
            match headingMatchAt p (c :: rest) with
            | some (hd, consumed) =>
                hd :: scanHeadingsGo fuel (p + consumed) (rest.drop (consumed - 1)) false
            | none => scanHeadingsGo fuel (p + 1) rest (isLineTerm c)
          else scanHeadingsGo fuel (p + 1) rest (isLineTerm c)

/-- All section headings (`##` and deeper) of a text with their character
offsets and trimmed titles, per the scan in embeddings.ts lines 33-44. -/
def extractSectionHeadings (text : List Char) : List Heading :=
  scanHeadingsGo text.length 0 text true

/-- embeddings.ts line 5: characters per chunk. -/
def CHUNK_SIZE : Nat := 1000

/-- embeddings.ts line 6: overlap between chunks. -/
def CHUNK_OVERLAP : Nat := 200

/-- The end offset chosen for a chunk starting at `start` (embeddings.ts lines
47-58): the target end `start + CHUNK_SIZE`, moved back to just after the last
period or newline at or before the target when that break point lies in the
second half of the target window.  The break search only happens when the
target end is strictly inside the text. -/
def chunkBreakEnd (text : List Char) (start : Nat) : Nat :=
  let e := start + CHUNK_SIZE
  if e < text.length then
    let lastPeriod := lastIndexOf text '.' e
    let lastNewline := lastIndexOf text '\n' e
    let breakPoint := max lastPeriod lastNewline
    if ((start + CHUNK_SIZE / 2 : Nat) : Int) < breakPoint then breakPoint.toNat + 1 else e
  else e

/-- One produced chunk together with the character range it was cut from.
`start`/`endPos` are the loop's `start`/`end` offsets; `content` is the
trimmed slice, `sectionTitle` the attributed section. -/
structure ChunkRec where
  start : Nat
  endPos : Nat
  content : List Char
  sectionTitle : Option (List Char)
  deriving DecidableEq, Repr

/-- The source's backward scan (embeddings.ts lines 63-69): the last extracted
heading whose position is at most the chunk's start offset. -/
def findSectionTitle (hs : List Heading) (start : Nat) : Option (List Char) :=
  (hs.reverse.find? (fun h => h.position ≤ start)).map (fun h => h.title)

/-- The chunking while-loop (embeddings.ts lines 46-78).  Each iteration cuts
`[start, e)`, trims it, emits it when nonempty, and restarts at
`e - CHUNK_OVERLAP`.  The loop terminates because each iteration advances the
start offset by at least `CHUNK_SIZE / 2 + 2 - CHUNK_OVERLAP = 302`
characters; the recursion is made structural by a step budget that the entry
point sets to `text.length + 1`, which that progress bound makes large enough,
so the budget-0 branch is never taken from the entry point. -/
def chunkLoopGo (text : List Char) (hs : List Heading) : Nat → Nat → List ChunkRec
  | _, 0 => []
  | start, fuel + 1 =>
      if start < text.length then
        let e := chunkBreakEnd text start
        let content := jsTrim (jsSlice text start e)
        let rest := chunkLoopGo text hs (e - CHUNK_OVERLAP) fuel
        if content.isEmpty then rest
        else ⟨start, e, content, findSectionTitle hs start⟩ :: rest
      else []

/-- The chunker with ranges: headings are extracted once, then the loop runs
from offset 0. -/
def chunkRecs (text : List Char) : List ChunkRec :=
  chunkLoopGo text (extractSectionHeadings text) 0 (text.length + 1)

/-- `chunkTextWithMetadata` (embeddings.ts lines 29-81): the ordered list of
(content, optional section title) pairs. -/
def chunkTextWithMetadata (text : List Char) : List (List Char × Option (List Char)) :=
  (chunkRecs text).map (fun r => (r.content, r.sectionTitle))

/-- Insertion step of a stable descending sort by key: skip over the elements
whose key is strictly larger, place `x` before the first element whose key is
at most `key x` (so earlier elements win ties). -/
def insertByDesc {α β : Type} [LinearOrder β] (key : α → β) (x : α) : List α → List α
  | [] => [x]
  | y :: ys => if key x < key y then y :: insertByDesc key x ys else x :: y :: ys

/-- Stable sort by a key, descending: the specified observable behaviour of JS
`Array.prototype.sort` with comparator `(a, b) => key(b) - key(a)` (the sort is
stable per the ECMAScript specification). -/
def sortByDesc {α β : Type} [LinearOrder β] (key : α → β) : List α → List α
  | [] => []
  | x :: xs => insertByDesc key x (sortByDesc key xs)

/-- embeddings.ts line 203: chunks are scanned in batches of this size. -/
def BATCH_SIZE : Nat := 100

/-- Step-budgeted recursion for `toBatches`: each step removes at least one
element, so a budget of the list's length is never exhausted. -/
def toBatchesGo {α : Type} : Nat → List α → List (List α)
  | 0, _ => []
  | _, [] => []
  | fuel + 1, x :: xs => (x :: xs).take BATCH_SIZE :: toBatchesGo fuel ((x :: xs).drop BATCH_SIZE)

/-- The consecutive slices `chunks.slice(i, i + BATCH_SIZE)` of the batch loop
in `searchSimilarChunks` (embeddings.ts lines 206-225). -/
def toBatches {α : Type} (l : List α) : List (List α) :=
  toBatchesGo l.length l

/-- A stored document row (shared/schema.ts `documents` and storage.ts). -/
structure DocRec where
  id : Nat
  content : List Char
  status : String
  errorMessage : Option String
  chapterTitle : Option (List Char)
  chunkCount : Nat
  deriving DecidableEq, Repr

/-- A stored chunk row (shared/schema.ts `document_chunks`): the embedding is
the nullable jsonb column, the section title the per-chunk metadata. -/
structure ChunkRow where
  documentId : Nat
  content : List Char
  embedding : Option (List ℚ)
  chunkIndex : Nat
  sectionTitle : Option (List Char)
  deriving DecidableEq, Repr

/-- A search result (embeddings.ts lines 135-139): `document` models the
`documents.get(chunk.documentId)` map lookup. -/
structure SearchResult (β : Type) where
  chunk : ChunkRow
  document : Option DocRec
  similarity : β
  deriving DecidableEq, Repr

/-- The batched scan, threshold filter, stable descending sort and truncation
of `searchSimilarChunks` (embeddings.ts lines 201-233), abstracted over the
similarity score of each stored chunk against the query (`sim` stands for
`calculateCosineSimilarity(queryEmbedding, chunk.embedding)`) and over the
score type. -/
def searchCore {β : Type} [LinearOrder β] (sim : ChunkRow → β) (docs : List DocRec)
    (threshold : β) (limit : Nat) (chunks : List ChunkRow) : List (SearchResult β) :=
  let results := ((toBatches chunks).map (fun batch =>
    (batch.map (fun c =>
      SearchResult.mk c (docs.find? (fun d => d.id = c.documentId)) (sim c))).filter
      (fun r => threshold < r.similarity))).flatten
  (sortByDesc (fun r => r.similarity) results).take limit

/-- The chunk/document cache snapshot (embeddings.ts lines 142-146): the
chunks with embeddings of completed documents, the completed documents, and
the rebuild timestamp. -/
structure CacheSnap where
  chunks : List ChunkRow
  docs : List DocRec
  lastUpdate : Nat
  deriving DecidableEq, Repr

/-- The module-level server state: the in-memory storage collaborator
(storage.ts `MemStorage`) plus the mutable `chunksCache` variable. -/
structure ServerSt where
  docs : List DocRec
  chunks : List ChunkRow
  cache : Option CacheSnap
  deriving DecidableEq, Repr

/-- embeddings.ts line 148: five-minute cache TTL in milliseconds. -/
def CACHE_TTL : Nat := 5 * 60 * 1000

/-- storage.ts `updateDocumentStatus`: set the status on the document with the
given id; the error message is nulled when absent or empty (`errorMessage ||
null`). -/
def updateDocumentStatus (id : Nat) (status : String) (errMsg : Option String)
    (st : ServerSt) : ServerSt :=
  { st with docs := st.docs.map (fun d =>
      if d.id = id then
        { d with status := status,
                 errorMessage := errMsg.bind (fun m => if m = "" then none else some m) }
      else d) }

/-- storage.ts `updateDocumentChunkCount`. -/
def updateDocumentChunkCount (id : Nat) (cnt : Nat) (st : ServerSt) : ServerSt :=
  { st with docs := st.docs.map (fun d => if d.id = id then { d with chunkCount := cnt } else d) }

/-- `storage.updateDocumentChapterTitle`, called by the pipeline
(embeddings.ts line 90).  The method body is not part of the storage variant
under src; modelled from the spec: a status-field update that records the
extracted chapter title on the document. -/
def updateDocumentChapterTitle (id : Nat) (t : List Char) (st : ServerSt) : ServerSt :=
  { st with docs := st.docs.map (fun d => if d.id = id then { d with chapterTitle := some t } else d) }

/-- storage.ts `deleteDocumentChunks`: drop every chunk row of the document. -/
def deleteDocumentChunks (id : Nat) (st : ServerSt) : ServerSt :=
  { st with chunks := st.chunks.filter (fun c => c.documentId ≠ id) }

/-- storage.ts `deleteDocument`: remove the document and, by cascade, its
chunk rows.  The cache is untouched. -/
def deleteDocument (id : Nat) (st : ServerSt) : ServerSt :=
  { st with docs := st.docs.filter (fun d => d.id ≠ id),
            chunks := st.chunks.filter (fun c => c.documentId ≠ id) }

/-- `storage.createDocumentChunkWithMetadata`, called by the pipeline
(embeddings.ts lines 107-113).  Modelled from storage.ts
`createDocumentChunk` (append a row in insertion order) extended with the
section title, per the spec's persistence contract. -/
def createDocumentChunkWithMetadata (docId : Nat) (content : List Char) (emb : List ℚ)
    (idx : Nat) (secTitle : Option (List Char)) (st : ServerSt) : ServerSt :=
  { st with chunks := st.chunks ++ [⟨docId, content, some emb, idx, secTitle⟩] }

/-- The per-chunk loop of `processDocument` (embeddings.ts lines 101-118):
embed and persist the chunks sequentially; the first failing chunk stops the
loop and surfaces its error.  `embed` abstracts the fallible body of the inner
try (the `createEmbedding` call and the persistence of that chunk); a `none`
second component means the loop completed. -/
def processChunks (embed : List Char → Except String (List ℚ)) (docId : Nat) :
    List (List Char × Option (List Char)) → Nat → ServerSt → ServerSt × Option String
  | [], _, st => (st, none)
  | ck :: rest, i, st =>
      match embed ck.1 with
      | .ok emb =>
          processChunks embed docId rest (i + 1)
            (createDocumentChunkWithMetadata docId ck.1 emb i ck.2 st)
      | .error e => (st, some e)

/-- `processDocument` (embeddings.ts lines 83-133) as a state transformer.
`extractTitle` abstracts `extractChapterTitle` (a pure regex whose value never
influences statuses, chunks or the cache).  The returned `Option String` is
the error re-thrown by the catch block (`none` on success).  On success the
chunk count is persisted, the status becomes "completed" and the cache is
invalidated; on failure the catch block sets status "error" with the failure
message and the cache is left as it was. -/
def processDocument (embed : List Char → Except String (List ℚ))
    (extractTitle : List Char → Option (List Char)) (doc : DocRec) (st : ServerSt) :
    ServerSt × Option String :=
  let st1 := match extractTitle doc.content with
    | some t => updateDocumentChapterTitle doc.id t st
    | none => st
  let st2 := deleteDocumentChunks doc.id st1
  let cs := chunkTextWithMetadata doc.content
  match processChunks embed doc.id cs 0 st2 with
  | (st3, none) =>
      let st4 := updateDocumentChunkCount doc.id cs.length st3
      let st5 := updateDocumentStatus doc.id "completed" none st4
      ({ st5 with cache := none }, none)
  | (st3, some e) =>
      (updateDocumentStatus doc.id "error" (some e) st3, some e)

/-- The cache rebuild (embeddings.ts lines 161-179): completed documents and
the stored chunks that have an embedding and a completed owner. -/
def buildCacheSnap (now : Nat) (st : ServerSt) : CacheSnap :=
  let completedDocs := st.docs.filter (fun d => d.status = "completed")
  ⟨st.chunks.filter (fun c =>
      c.embedding.isSome && completedDocs.any (fun d => d.id = c.documentId)),
   completedDocs, now⟩

/-- `getCachedChunksAndDocs` (embeddings.ts lines 150-183): serve the cached
snapshot while it is within the TTL, otherwise rebuild it from storage and
store it back into the module-level cache variable. -/
def getCachedChunksAndDocs (now : Nat) (st : ServerSt) : ServerSt × CacheSnap :=
  match st.cache with
  | some snap =>
      if now - snap.lastUpdate < CACHE_TTL then (st, snap)
      else
        let s := buildCacheSnap now st
        ({ st with cache := some s }, s)
  | none =>
      let s := buildCacheSnap now st
      ({ st with cache := some s }, s)

/-- `searchSimilarChunks` (embeddings.ts lines 190-239) at the state level:
read the (possibly rebuilt) cache snapshot, then rank its chunks.  The query
embedding and the cosine call are abstracted into `sim`, the similarity of the
query with a stored chunk; the threshold is the source's 0.3. -/
def searchSimilarChunksSt (sim : ChunkRow → ℚ) (limit : Nat) (now : Nat) (st : ServerSt) :
    ServerSt × List (SearchResult ℚ) :=
  let p := getCachedChunksAndDocs now st
  (p.1, searchCore sim p.2.docs (mkRat 3 10) limit p.2.chunks)

/-- Outcome of the delete route. -/
inductive DeleteOutcome
  | notFound
  | deleted
  deriving DecidableEq, Repr

/-- The `DELETE /api/documents/:id` handler (routes, lines 210-224): look the
document up, 404 when absent, otherwise delete it (cascading to its chunks).
The handler never touches the cache. -/
def deleteDocumentHandler (id : Nat) (st : ServerSt) : ServerSt × DeleteOutcome :=
  match st.docs.find? (fun d => d.id = id) with
  | none => (st, .notFound)
  | some _ => (deleteDocument id st, .deleted)

/-- Elementwise product sum: the accumulation `dotProduct += a[i] * b[i]` of
the similarity loops, for vectors of equal length. -/
def dotL (a b : List ℝ) : ℝ :=
  (List.zipWith (fun x y => x * y) a b).sum

/-- The accumulation `normA += a[i] * a[i]`: the squared Euclidean norm. -/
def sumSq (a : List ℝ) : ℝ :=
  dotL a a

open Classical in
/-- `calculateCosineSimilarity` (openai.ts lines 46-69) over exact reals: a
hard error on a length mismatch, 0 when either norm is zero, otherwise the
dot product over the product of norms.  The single source loop computes the
three accumulations `dotProduct`, `normA`, `normB` of `dotL`/`sumSq`. -/
noncomputable def calculateCosineSimilarity (a b : List ℝ) : Except String ℝ :=
  if a.length ≠ b.length then .error "Vectors must have the same length"
  else
    let normA := Real.sqrt (sumSq a)
    let normB := Real.sqrt (sumSq b)
    if normA = 0 ∨ normB = 0 then .ok 0
    else .ok (dotL a b / (normA * normB))

/-- `normalizeEmbedding` (the optimized-search variant, lines 164-168): divide
every component by the Euclidean norm, computed by the
`reduce((sum, val) => sum + val * val, 0)` fold. -/
noncomputable def normalizeEmbedding (a : List ℝ) : List ℝ :=
  let norm := Real.sqrt (a.foldl (fun sum val => sum + val * val) 0)
  a.map (fun val => val / norm)

/-- `dotProduct` (the optimized-search variant, lines 170-177): the plain
product-sum loop over the common indices of two equal-length vectors. -/
def dotProduct (a b : List ℝ) : ℝ :=
  (List.zipWith (fun x y => x * y) a b).sum

/-- One scored candidate row of the hybrid search (semantic or keyword query),
keyed by the chunk id. -/
structure ScoredRow (β : Type) where
  id : Nat
  score : β
  deriving DecidableEq, Repr

/-- One combined entry of the hybrid fusion map. -/
structure CombinedRow (β : Type) where
  id : Nat
  combinedScore : β
  deriving DecidableEq, Repr

/-- The first fusion loop (hybrid search, `combinedResults.set(row.id, ...)`):
a JS `Map.set`, which overwrites in place when the key exists (keeping the
original insertion position) and appends otherwise. -/
def jsMapSet {β : Type} (m : List (CombinedRow β)) (e : CombinedRow β) : List (CombinedRow β) :=
  if m.any (fun x => x.id = e.id) then m.map (fun x => if x.id = e.id then e else x)
  else m ++ [e]

/-- Add the semantic candidates: each contributes `semantic_score ×
semanticWeight` under its chunk id (hybrid search, step 4, first forEach). -/
def addSemanticRows {β : Type} [Mul β] (w1 : β) (rows : List (ScoredRow β)) :
    List (CombinedRow β) :=
  rows.foldl (fun m r => jsMapSet m ⟨r.id, r.score * w1⟩) []

/-- Add the keyword candidates (hybrid search, step 4, second forEach): a chunk
already present accumulates `keyword_score × keywordWeight` onto its combined
score in place; a new chunk is appended with just the keyword term. -/
def addKeywordRows {β : Type} [Mul β] [Add β] (w2 : β) (rows : List (ScoredRow β))
    (m0 : List (CombinedRow β)) : List (CombinedRow β) :=
  rows.foldl (fun m r =>
    if m.any (fun x => x.id = r.id) then
      m.map (fun x => if x.id = r.id then ⟨x.id, x.combinedScore + r.score * w2⟩ else x)
    else m ++ [⟨r.id, r.score * w2⟩]) m0

/-- The fused candidate map of `hybridSearch` (step 4), in `Map.values()`
insertion order. -/
def hybridCombine {β : Type} [Mul β] [Add β] (w1 w2 : β)
    (sem kw : List (ScoredRow β)) : List (CombinedRow β) :=
  addKeywordRows w2 kw (addSemanticRows w1 sem)

/-- Step 5 of `hybridSearch`: sort the fused candidates by combined score,
descending, and keep the top `limit`. -/
def hybridSearchRank {β : Type} [LinearOrder β] [Mul β] [Add β] (w1 w2 : β) (limit : Nat)
    (sem kw : List (ScoredRow β)) : List (CombinedRow β) :=
  (sortByDesc (fun e => e.combinedScore) (hybridCombine w1 w2 sem kw)).take limit

/-- Concrete document text for the chunk-overlap counterexample: 400 letters,
a 2000-character whitespace run, then 400 letters. -/
def cexText : List Char :=
  List.replicate 400 'a' ++ List.replicate 2000 '\n' ++ List.replicate 400 'b'

/-- An embedding provider that always fails. -/
def embedFailB : List Char → Except String (List ℚ) :=
  fun _ => .error "boom"

/-- An embedding provider that always succeeds. -/
def embedOkB : List Char → Except String (List ℚ) :=
  fun _ => .ok [1]

/-- A chapter-title extractor that finds nothing. -/
def extNone : List Char → Option (List Char) :=
  fun _ => none

/-- A concrete document for the pipeline scenarios. -/
def docA : DocRec :=
  ⟨1, "Hello. World.".toList, "processing", none, none, 0⟩

/-- A concrete server state holding `docA` and a live cache snapshot. -/
def stA : ServerSt :=
  ⟨[docA], [], some ⟨[], [], 0⟩⟩

/-- A completed document whose chunk sits in the cache of `stC`. -/
def docC : DocRec :=
  ⟨1, "Alpha.".toList, "completed", none, none, 1⟩

/-- The stored chunk row of `docC`. -/
def chC : ChunkRow :=
  ⟨1, "Alpha.".toList, some [1], 0, none⟩

/-- A server state whose cache snapshot (rebuilt at time 0) contains `docC`
and its chunk. -/
def stC : ServerSt :=
  ⟨[docC], [chC], some ⟨[chC], [docC], 0⟩⟩

/-- A query-similarity oracle ranking every chunk at 1. -/
def simOne : ChunkRow → ℚ :=
  fun _ => 1

/-- A second completed document (id 2) and its chunk, for the delete-witness
state. -/
def docD : DocRec :=
  ⟨2, "Beta.".toList, "completed", none, none, 1⟩

/-- The stored chunk row of `docD`. -/
def chD : ChunkRow :=
  ⟨2, "Beta.".toList, some [2], 0, none⟩

/-- A server state with two completed documents and no cache snapshot. -/
def stB : ServerSt :=
  ⟨[docC, docD], [chC, chD], none⟩

/-- The search result the witness search returns for the surviving document. -/
def rB : SearchResult ℚ := ⟨chD, some docD, 1⟩

/-- Chunk rows for the ranking witness (indices 0, 1 and 2 of document 1). -/
def cw0 : ChunkRow := ⟨1, "x".toList, some [1], 0, none⟩

/-- Second chunk row for the ranking witness. -/
def cw1 : ChunkRow := ⟨1, "y".toList, some [1], 1, none⟩

/-- Third chunk row for the ranking witness. -/
def cw2 : ChunkRow := ⟨1, "z".toList, some [1], 2, none⟩

/-- A similarity oracle for the ranking witness: chunk 1 scores below the
threshold, chunks 0 and 2 tie at one half. -/
def simW : ChunkRow → ℚ := fun c => if c.chunkIndex = 1 then mkRat 1 5 else mkRat 1 2

/-- The top result of the ranking witness. -/
def rW : SearchResult ℚ := ⟨cw0, none, mkRat 1 2⟩

/-- Semantic candidates for the hybrid-fusion witness. -/
def semW : List (ScoredRow ℚ) := [⟨1, 1⟩, ⟨2, mkRat 1 2⟩]

/-- Keyword candidates for the hybrid-fusion witness. -/
def kwW : List (ScoredRow ℚ) := [⟨2, 2⟩, ⟨3, 1⟩]

/-- A two-character document for the coverage witness. -/
def c4txt : List Char := "ab".toList

/-- A small document with one section heading, for the section-attribution
witness. -/
def c6txt : List Char := "## Intro\nHello. World.".toList

/-- The single chunk the chunker produces for `c6txt`. -/
def c6chunk : ChunkRec := ⟨0, 1000, c6txt, some "Intro".toList⟩

/-! ### Utility lemmas -/

theorem jsTrim_eq_nil {l : List Char} (h : jsTrim l = []) :
    ∀ c ∈ l, isJsWhitespace c = true := by
  intro c hc
  have h1 : (l.dropWhile isJsWhitespace).reverse.dropWhile isJsWhitespace = [] := by
    simpa [jsTrim] using congrArg List.reverse h
  have h2 : ∀ x ∈ l.dropWhile isJsWhitespace, isJsWhitespace x = true := by
    intro x hx
    exact (List.dropWhile_eq_nil_iff.mp h1) x (List.mem_reverse.mpr hx)
  have hsplit : c ∈ l.takeWhile isJsWhitespace ++ l.dropWhile isJsWhitespace := by
    rw [List.takeWhile_append_dropWhile]; exact hc
  rcases List.mem_append.mp hsplit with h3 | h3
  · exact List.mem_takeWhile_imp h3
  · exact h2 c h3

theorem lastIndexOfAux_le (c : Char) (fromIdx : Nat) :
    ∀ (l : List Char) (i : Nat) (acc : Int), acc ≤ (fromIdx : Int) →
      lastIndexOfAux c fromIdx l i acc ≤ (fromIdx : Int) := by
  intro l
  induction l with
  | nil => intro i acc hacc; simpa [lastIndexOfAux] using hacc
  | cons x xs ih =>
      intro i acc hacc
      simp only [lastIndexOfAux]
      apply ih
      split
      · next hcond =>
        have h1 : i ≤ fromIdx := by
          have h2 := ((Bool.and_eq_true _ _).mp hcond).1
          simpa [decide_eq_true_eq] using h2
        exact_mod_cast h1
      · exact hacc

theorem lastIndexOf_le (text : List Char) (ch : Char) (fromIdx : Nat) :
    lastIndexOf text ch fromIdx ≤ (fromIdx : Int) := by
  apply lastIndexOfAux_le
  omega

theorem chunkBreakEnd_lower (text : List Char) (s : Nat) :
    s + 502 ≤ chunkBreakEnd text s := by
  simp only [chunkBreakEnd, CHUNK_SIZE]
  split
  · split
    · next hbp => omega
    · omega
  · omega

/-! ### Stable descending sort: permutation, sortedness, tie stability -/

theorem insertByDesc_perm {α β : Type} [LinearOrder β] (key : α → β) (x : α) :
    ∀ l : List α, (insertByDesc key x l).Perm (x :: l) := by
  intro l
  induction l with
  | nil => simp [insertByDesc]
  | cons y ys ih =>
      simp only [insertByDesc]
      split
      · exact ((ih.cons y).trans (List.Perm.swap x y ys))
      · exact List.Perm.refl _

theorem sortByDesc_perm {α β : Type} [LinearOrder β] (key : α → β) :
    ∀ l : List α, (sortByDesc key l).Perm l := by
  intro l
  induction l with
  | nil => simp [sortByDesc]
  | cons x xs ih =>
      simp only [sortByDesc]
      exact (insertByDesc_perm key x (sortByDesc key xs)).trans (ih.cons x)

theorem insertByDesc_pairwise {α β : Type} [LinearOrder β] (key : α → β) (x : α) :
    ∀ l : List α, List.Pairwise (fun a b => key b ≤ key a) l →
      List.Pairwise (fun a b => key b ≤ key a) (insertByDesc key x l) := by
  intro l
  induction l with
  | nil => intro _; simp [insertByDesc]
  | cons y ys ih =>
      intro hp
      rcases List.pairwise_cons.mp hp with ⟨hy, hys⟩
      simp only [insertByDesc]
      split
      · next hlt =>
        apply List.pairwise_cons.mpr
        constructor
        · intro z hz
          rcases List.mem_cons.mp ((insertByDesc_perm key x ys).mem_iff.mp hz) with hz | hz
          · subst hz; exact le_of_lt hlt
          · exact hy z hz
        · exact ih hys
      · next hge =>
        apply List.pairwise_cons.mpr
        constructor
        · intro z hz
          rcases List.mem_cons.mp hz with hz | hz
          · subst hz; exact le_of_not_lt hge
          · exact le_trans (hy z hz) (le_of_not_lt hge)
        · exact hp

theorem sortByDesc_pairwise {α β : Type} [LinearOrder β] (key : α → β) :
    ∀ l : List α, List.Pairwise (fun a b => key b ≤ key a) (sortByDesc key l) := by
  intro l
  induction l with
  | nil => simp [sortByDesc]
  | cons x xs ih =>
      simp only [sortByDesc]
      exact insertByDesc_pairwise key x _ ih

theorem insertByDesc_filter_eq {α β : Type} [LinearOrder β] (key : α → β) (x : α) (k : β) :
    ∀ l : List α, (insertByDesc key x l).filter (fun a => key a = k) =
      if key x = k then x :: l.filter (fun a => key a = k)
      else l.filter (fun a => key a = k) := by
  intro l
  induction l with
  | nil => by_cases hxk : key x = k <;> simp [insertByDesc, List.filter, hxk]
  | cons y ys ih =>
      simp only [insertByDesc]
      split
      · next hlt =>
        by_cases hxk : key x = k
        · have hyk : ¬ (key y = k) := by
            intro hyk
            rw [hxk, hyk] at hlt
            exact lt_irrefl _ hlt
          simp only [List.filter_cons, ih]
          simp [hxk, hyk]
        · simp only [List.filter_cons, ih]
          by_cases hyk : key y = k <;> simp [hxk, hyk]
      · simp only [List.filter_cons]
        by_cases hxk : key x = k <;> by_cases hyk : key y = k <;>
          simp [hxk, hyk, List.filter_cons]

theorem sortByDesc_filter_eq {α β : Type} [LinearOrder β] (key : α → β) (k : β) :
    ∀ l : List α, (sortByDesc key l).filter (fun a => key a = k) =
      l.filter (fun a => key a = k) := by
  intro l
  induction l with
  | nil => simp [sortByDesc]
  | cons x xs ih =>
      simp only [sortByDesc, insertByDesc_filter_eq, ih, List.filter_cons]
      by_cases hxk : key x = k <;> simp [hxk]

theorem sortTake_topK {α β : Type} [LinearOrder β] (key : α → β) (l : List α) (lim : Nat) :
    ((sortByDesc key l).take lim).length ≤ lim ∧
    List.Pairwise (fun a b => key b ≤ key a) ((sortByDesc key l).take lim) ∧
    ∀ e ∈ l, e ∉ (sortByDesc key l).take lim →
      ((sortByDesc key l).take lim).length = lim ∧
      ∀ o ∈ (sortByDesc key l).take lim, key e ≤ key o := by
  refine ⟨?_, ?_, ?_⟩
  · exact List.length_take_le lim (sortByDesc key l)
  · exact (sortByDesc_pairwise key l).sublist (List.take_sublist lim _)
  · intro e hel hnot
    have hes : e ∈ sortByDesc key l := (sortByDesc_perm key l).mem_iff.mpr hel
    have hsplit : (sortByDesc key l).take lim ++ (sortByDesc key l).drop lim = sortByDesc key l :=
      List.take_append_drop lim _
    have hedrop : e ∈ (sortByDesc key l).drop lim := by
      rcases List.mem_append.mp (by rw [hsplit]; exact hes) with h | h
      · exact absurd h hnot
      · exact h
    have hlen : lim < (sortByDesc key l).length := by
      by_contra hle
      push_neg at hle
      rw [List.drop_eq_nil_of_le hle] at hedrop
      exact absurd hedrop (List.not_mem_nil e)
    constructor
    · simp [List.length_take]
      omega
    · intro o ho
      have hpw := sortByDesc_pairwise key l
      rw [← hsplit] at hpw
      exact (List.pairwise_append.mp hpw).2.2 o ho e hedrop

/-! ### Batching -/

theorem toBatchesGo_flatten {α : Type} :
    ∀ (fuel : Nat) (l : List α), l.length ≤ fuel → (toBatchesGo fuel l).flatten = l := by
  intro fuel
  induction fuel with
  | zero =>
      intro l hl
      have : l = [] := List.length_eq_zero.mp (Nat.le_zero.mp hl)
      subst this
      simp [toBatchesGo]
  | succ n ih =>
      intro l hl
      cases l with
      | nil => simp [toBatchesGo]
      | cons x xs =>
          rw [toBatchesGo]
          simp only [List.flatten_cons]
          rw [ih _ (by simp only [List.length_drop, List.length_cons, BATCH_SIZE] at hl ⊢; omega)]
          exact List.take_append_drop _ _

theorem toBatches_flatten {α : Type} (l : List α) : (toBatches l).flatten = l :=
  toBatchesGo_flatten l.length l le_rfl

theorem flatten_map_filter {α γ : Type} (g : α → γ) (p : γ → Bool) :
    ∀ (bs : List (List α)),
      ((bs.map (fun b => (b.map g).filter p)).flatten) = (bs.flatten.map g).filter p := by
  intro bs
  induction bs with
  | nil => simp
  | cons b rest ih => simp [ih, List.filter_append]

theorem searchCore_eq {β : Type} [LinearOrder β] (sim : ChunkRow → β) (docs : List DocRec)
    (threshold : β) (limit : Nat) (chunks : List ChunkRow) :
    searchCore sim docs threshold limit chunks =
      (sortByDesc (fun r => r.similarity)
        ((chunks.map (fun c =>
          SearchResult.mk c (docs.find? (fun d => d.id = c.documentId)) (sim c))).filter
          (fun r => threshold < r.similarity))).take limit := by
  simp only [searchCore, flatten_map_filter, toBatches_flatten]

/-! ### C7: ranking contract of searchSimilarChunks -/

/-- C7: `searchSimilarChunks` returns at most `limit` results, sorted by
descending similarity with ties kept stable in the candidates' original order
(stated as: each tie class of the output is an in-order sublist of the
corresponding tie class of the candidate list), and every returned result has
similarity strictly above the threshold (the source configures 0.3), so
candidates at or below the threshold are excluded even when fewer than `limit`
results are returned. -/
theorem C7_search_ranking {β : Type} [LinearOrder β] (sim : ChunkRow → β)
    (docs : List DocRec) (threshold : β) (limit : Nat) (chunks : List ChunkRow) :
    (searchCore sim docs threshold limit chunks).length ≤ limit ∧
    List.Pairwise (fun a b => b.similarity ≤ a.similarity)
      (searchCore sim docs threshold limit chunks) ∧
    (∀ r ∈ searchCore sim docs threshold limit chunks, threshold < r.similarity) ∧
    ∀ k : β, ((searchCore sim docs threshold limit chunks).filter
        (fun r => r.similarity = k)).Sublist
      ((chunks.map (fun c =>
        SearchResult.mk c (docs.find? (fun d => d.id = c.documentId)) (sim c))).filter
        (fun r => r.similarity = k)) := by
  rw [searchCore_eq]
  set cands := (chunks.map (fun c =>
    SearchResult.mk c (docs.find? (fun d => d.id = c.documentId)) (sim c))) with hcands
  set filtered := cands.filter (fun r => threshold < r.similarity) with hfiltered
  obtain ⟨hlen, hpw, _⟩ := sortTake_topK (fun r : SearchResult β => r.similarity) filtered limit
  refine ⟨hlen, hpw, ?_, ?_⟩
  · intro r hr
    have hrs : r ∈ sortByDesc (fun r => r.similarity) filtered :=
      (List.take_sublist _ _).mem hr
    have hrf : r ∈ filtered := (sortByDesc_perm _ _).mem_iff.mp hrs
    have := List.mem_filter.mp hrf
    simpa [decide_eq_true_eq] using this.2
  · intro k
    have s1 : (((sortByDesc (fun r => r.similarity) filtered).take limit).filter
        (fun r => r.similarity = k)).Sublist
        ((sortByDesc (fun r => r.similarity) filtered).filter (fun r => r.similarity = k)) :=
      (List.take_sublist _ _).filter _
    have s2 : ((sortByDesc (fun r => r.similarity) filtered).filter
        (fun r => r.similarity = k)) = filtered.filter (fun r => r.similarity = k) :=
      sortByDesc_filter_eq (fun r : SearchResult β => r.similarity) k filtered
    have s3 : (filtered.filter (fun r => r.similarity = k)).Sublist
        (cands.filter (fun r => r.similarity = k)) :=
      (List.filter_sublist _).filter _
    exact (s2 ▸ s1).trans s3

theorem mem_searchCore_chunk {β : Type} [LinearOrder β] (sim : ChunkRow → β)
    (docs : List DocRec) (threshold : β) (limit : Nat) (chunks : List ChunkRow) :
    ∀ r ∈ searchCore sim docs threshold limit chunks, r.chunk ∈ chunks := by
  rw [searchCore_eq]
  intro r hr
  have hrs := (List.take_sublist _ _).mem hr
  have hrf := (sortByDesc_perm _ _).mem_iff.mp hrs
  have hrm := (List.mem_filter.mp hrf).1
  rcases List.mem_map.mp hrm with ⟨c, hc, rfl⟩
  exact hc

/-! ### Chunker loop invariants -/

theorem chunkLoopGo_mem (text : List Char) (hs : List Heading) :
    ∀ (fuel : Nat) (s : Nat), ∀ r ∈ chunkLoopGo text hs s fuel,
      s ≤ r.start ∧ r.start < text.length ∧ r.endPos = chunkBreakEnd text r.start ∧
      r.content = jsTrim (jsSlice text r.start r.endPos) ∧
      r.sectionTitle = findSectionTitle hs r.start := by
  intro fuel
  induction fuel with
  | zero =>
      intro s r hr
      rw [chunkLoopGo] at hr
      exact absurd hr (List.not_mem_nil r)
  | succ n ih =>
      intro s r hr
      rw [chunkLoopGo] at hr
      split at hr
      · next hlt =>
        have h502 := chunkBreakEnd_lower text s
        simp only at hr
        split at hr
        · obtain ⟨h1, h2, h3, h4, h5⟩ := ih _ r hr
          refine ⟨?_, h2, h3, h4, h5⟩
          simp only [CHUNK_OVERLAP] at h1
          omega
        · rcases List.mem_cons.mp hr with rfl | hr
          · exact ⟨le_refl s, hlt, rfl, rfl, rfl⟩
          · obtain ⟨h1, h2, h3, h4, h5⟩ := ih _ r hr
            refine ⟨?_, h2, h3, h4, h5⟩
            simp only [CHUNK_OVERLAP] at h1
            omega
      · exact absurd hr (List.not_mem_nil r)

theorem chunkLoopGo_pairwise (text : List Char) (hs : List Heading) :
    ∀ (fuel : Nat) (s : Nat),
      List.Pairwise (fun a b : ChunkRec =>
        a.start + 302 ≤ b.start ∧ a.endPos + 302 ≤ b.endPos ∧ a.endPos ≤ b.start + 200)
        (chunkLoopGo text hs s fuel) := by
  intro fuel
  induction fuel with
  | zero =>
      intro s
      rw [chunkLoopGo]
      exact List.Pairwise.nil
  | succ n ih =>
      intro s
      rw [chunkLoopGo]
      split
      · next hlt =>
        have h502 := chunkBreakEnd_lower text s
        simp only
        split
        · exact ih _
        · apply List.pairwise_cons.mpr
          refine ⟨?_, ih _⟩
          intro b hb
          obtain ⟨h1, _, h3, _, _⟩ := chunkLoopGo_mem text hs n _ b hb
          have hbe := chunkBreakEnd_lower text b.start
          rw [← h3] at hbe
          simp only [CHUNK_OVERLAP] at h1
          dsimp only
          omega
      · exact List.Pairwise.nil

theorem chunkLoopGo_coverage (text : List Char) (hs : List Heading) :
    ∀ (fuel : Nat) (s : Nat), text.length - s < fuel →
      ∀ (i : Nat) (hi : i < text.length), s ≤ i →
        isJsWhitespace (text.get ⟨i, hi⟩) = false →
        ∃ r ∈ chunkLoopGo text hs s fuel, r.start ≤ i ∧ i < r.endPos := by
  intro fuel
  induction fuel with
  | zero =>
      intro s hle i hi hsi hws
      exfalso
      omega
  | succ n ih =>
      intro s hle i hi hsi hws
      have hlt : s < text.length := lt_of_le_of_lt hsi hi
      rw [chunkLoopGo]
      rw [if_pos hlt]
      have h502 := chunkBreakEnd_lower text s
      have hmeasure : text.length - (chunkBreakEnd text s - CHUNK_OVERLAP) < n := by
        simp only [CHUNK_OVERLAP]; omega
      by_cases hie : i < chunkBreakEnd text s
      · simp only
        split
        · next hempty =>
          exfalso
          have hnil : jsTrim (jsSlice text s (chunkBreakEnd text s)) = [] :=
            List.isEmpty_iff.mp hempty
          have hlenL : i - s < (jsSlice text s (chunkBreakEnd text s)).length := by
            simp only [jsSlice, List.length_drop, List.length_take]
            omega
          have hval : (jsSlice text s (chunkBreakEnd text s)).get ⟨i - s, hlenL⟩ =
              text.get ⟨i, hi⟩ := by
            simp only [jsSlice, List.get_eq_getElem, List.getElem_drop, List.getElem_take]
            congr 1
            omega
          have hm : text.get ⟨i, hi⟩ ∈ jsSlice text s (chunkBreakEnd text s) := by
            rw [← hval]
            exact List.get_mem _ _ _
          have := jsTrim_eq_nil hnil _ hm
          rw [hws] at this
          exact Bool.false_ne_true this
        · refine ⟨_, List.mem_cons_self _ _, hsi, hie⟩
      · have hsi2 : chunkBreakEnd text s - CHUNK_OVERLAP ≤ i := by
          simp only [CHUNK_OVERLAP]; omega
        obtain ⟨r, hr, h1, h2⟩ := ih _ hmeasure i hi hsi2 hws
        simp only
        split
        · exact ⟨r, hr, h1, h2⟩
        · exact ⟨r, List.mem_cons_of_mem _ hr, h1, h2⟩


theorem chunkRecs_pairwise (text : List Char) :
    List.Pairwise (fun a b : ChunkRec =>
      a.start + 302 ≤ b.start ∧ a.endPos + 302 ≤ b.endPos ∧ a.endPos ≤ b.start + 200)
      (chunkRecs text) :=
  chunkLoopGo_pairwise text _ (text.length + 1) 0

theorem chunkRecs_coverage (text : List Char) :
    ∀ (i : Nat) (hi : i < text.length), isJsWhitespace (text.get ⟨i, hi⟩) = false →
      ∃ r ∈ chunkRecs text, r.start ≤ i ∧ i < r.endPos :=
  fun i hi h => chunkLoopGo_coverage text _ (text.length + 1) 0 (by omega) i hi (Nat.zero_le i) h

/-! ### C5: forward progress of the chunking loop -/

/-- C5: the chunking loop of `chunkTextWithMetadata` terminates (it is a total
function of the text; the end offset advances by at least `CHUNK_SIZE / 2 + 2`
while the restart only backs up by the smaller `CHUNK_OVERLAP = 200`) and the
produced chunks' start offsets are strictly increasing in chunk index. -/
theorem C5_start_offsets_strictly_increase (text : List Char) :
    List.Pairwise (fun a b : ChunkRec => a.start < b.start) (chunkRecs text) :=
  (chunkRecs_pairwise text).imp (fun h => by omega)

/-! ### C4: coverage and overlap of chunk ranges -/

/-- C4 (amended): every non-whitespace character position of the text lies
inside some produced chunk's range; consecutive produced chunks' ranges
overlap by at most the configured `CHUNK_OVERLAP = 200`; and any gap between
consecutive produced chunks' ranges holds only whitespace (such gaps occur
exactly when intermediate all-whitespace chunks were dropped, so the overlap
is not always positive). -/
theorem C4_coverage_and_overlap (text : List Char) :
    (∀ (i : Nat) (hi : i < text.length), isJsWhitespace (text.get ⟨i, hi⟩) = false →
      ∃ r ∈ chunkRecs text, r.start ≤ i ∧ i < r.endPos) ∧
    List.Chain' (fun a b : ChunkRec => a.endPos ≤ b.start + CHUNK_OVERLAP) (chunkRecs text) ∧
    ∀ (k : Nat) (hk : k + 1 < (chunkRecs text).length) (i : Nat) (hi : i < text.length),
      ((chunkRecs text).get ⟨k, by omega⟩).endPos ≤ i →
      i < ((chunkRecs text).get ⟨k + 1, hk⟩).start →
      isJsWhitespace (text.get ⟨i, hi⟩) = true := by
  refine ⟨chunkRecs_coverage text, ?_, ?_⟩
  · exact ((chunkRecs_pairwise text).imp
      (fun h => by simp only [CHUNK_OVERLAP]; omega)).chain'
  · intro k hk i hi hge hlt
    by_cases hws : isJsWhitespace (text.get ⟨i, hi⟩) = true
    · exact hws
    · exfalso
      have hws' : isJsWhitespace (text.get ⟨i, hi⟩) = false := by
        cases hb : isJsWhitespace (text.get ⟨i, hi⟩)
        · rfl
        · exact absurd hb hws
      obtain ⟨r, hr, hri, hir⟩ := chunkRecs_coverage text i hi hws'
      obtain ⟨j, hj, hrj⟩ := List.mem_iff_getElem.mp hr
      have hpw := List.pairwise_iff_getElem.mp (chunkRecs_pairwise text)
      simp only [List.get_eq_getElem] at hge hlt
      rcases Nat.lt_or_ge j k with hjk | hjk
      · have hx := hpw j k (by omega) (by omega) hjk
        rw [hrj] at hx
        omega
      · rcases Nat.eq_or_lt_of_le hjk with hjk2 | hjk2
        · have hj2 : j = k := by omega
          subst hj2
          rw [hrj] at hge
          omega
        · rcases Nat.eq_or_lt_of_le hjk2 with hjk3 | hjk3
          · have hj2 : j = k + 1 := by omega
            subst hj2
            rw [hrj] at hlt
            omega
          · have hx := hpw (k + 1) j (by omega) (by omega) (by omega)
            rw [hrj] at hx
            omega

/-- Witness for C4: in the two-character document "ab", position 0 holds a
non-whitespace character and is covered by a produced chunk. -/
theorem C4_witness : ∃ r ∈ chunkRecs c4txt, r.start ≤ 0 ∧ 0 < r.endPos :=
  (C4_coverage_and_overlap c4txt).1 0 (by decide) (by decide)

theorem jsTrim_eq_nil_of_all {l : List Char} (h : ∀ c ∈ l, isJsWhitespace c = true) :
    jsTrim l = [] := by
  have h1 : l.dropWhile isJsWhitespace = [] := List.dropWhile_eq_nil_iff.mpr h
  simp [jsTrim, h1]

theorem lastIndexOfAux_append (c : Char) (f : Nat) :
    ∀ (l1 l2 : List Char) (i : Nat) (acc : Int),
      lastIndexOfAux c f (l1 ++ l2) i acc =
        lastIndexOfAux c f l2 (i + l1.length) (lastIndexOfAux c f l1 i acc) := by
  intro l1
  induction l1 with
  | nil => intro l2 i acc; simp [lastIndexOfAux]
  | cons x xs ih =>
      intro l2 i acc
      simp only [List.cons_append, lastIndexOfAux, List.length_cons, List.append_eq]
      rw [ih]
      have hx : i + (xs.length + 1) = i + 1 + xs.length := by omega
      rw [hx]

theorem lastIndexOfAux_replicate_ne (c : Char) (f : Nat) (x : Char) (hx : ¬ x = c) :
    ∀ (d : Nat) (i : Nat) (acc : Int),
      lastIndexOfAux c f (List.replicate d x) i acc = acc := by
  intro d
  induction d with
  | zero => intro i acc; simp [lastIndexOfAux]
  | succ d ih =>
      intro i acc
      simp only [List.replicate_succ, lastIndexOfAux]
      rw [if_neg (by simp [hx]), ih]

theorem lastIndexOfAux_replicate_eq (c : Char) (f : Nat) :
    ∀ (d : Nat) (i : Nat) (acc : Int),
      lastIndexOfAux c f (List.replicate d c) i acc =
        if i ≤ f ∧ 1 ≤ d then ((min (i + d - 1) f : Nat) : Int) else acc := by
  intro d
  induction d with
  | zero => intro i acc; simp [lastIndexOfAux]
  | succ d ih =>
      intro i acc
      simp only [List.replicate_succ, lastIndexOfAux]
      have hcc : (decide (i ≤ f) && decide True) = decide (i ≤ f) := by simp
      rw [hcc, ih]
      by_cases h1 : i ≤ f
      · rw [if_pos (⟨h1, by omega⟩ : i ≤ f ∧ 1 ≤ d + 1)]
        by_cases h3 : i + 1 ≤ f
        · by_cases h2 : 1 ≤ d
          · rw [if_pos (⟨h3, h2⟩ : i + 1 ≤ f ∧ 1 ≤ d)]
            have hn : i + 1 + d - 1 = i + (d + 1) - 1 := by omega
            rw [hn]
          · rw [if_neg (fun hh => absurd hh.2 (by omega))]
            rw [if_pos (by simpa using h1)]
            have hd0 : d = 0 := by omega
            subst hd0
            have hm : min (i + (0 + 1) - 1) f = i := by omega
            rw [hm]
        · rw [if_neg (fun hh : i + 1 ≤ f ∧ 1 ≤ d => absurd hh.1 h3)]
          rw [if_pos (by simpa using h1)]
          have hm : min (i + (d + 1) - 1) f = i := by omega
          rw [hm]
      · rw [if_neg (fun hh : i + 1 ≤ f ∧ 1 ≤ d => absurd hh.1 (by omega))]
        rw [if_neg (fun hh : i ≤ f ∧ 1 ≤ d + 1 => absurd hh.1 h1)]
        rw [if_neg (by simpa using h1)]

theorem cexText_length : cexText.length = 2800 := by
  rw [cexText, List.length_append, List.length_append, List.length_replicate,
    List.length_replicate, List.length_replicate]

theorem lastIndexOf_cex_dot (e : Nat) : lastIndexOf cexText '.' e = -1 := by
  simp only [cexText, lastIndexOf, lastIndexOfAux_append,
    lastIndexOfAux_replicate_ne '.' e 'a' (by decide),
    lastIndexOfAux_replicate_ne '.' e 'b' (by decide),
    lastIndexOfAux_replicate_ne '.' e '\n' (by decide)]

theorem lastIndexOf_cex_nl (e : Nat) (he : 400 ≤ e) :
    lastIndexOf cexText '\n' e = ((min 2399 e : Nat) : Int) := by
  simp only [cexText, lastIndexOf, lastIndexOfAux_append,
    lastIndexOfAux_replicate_ne '\n' e 'a' (by decide),
    lastIndexOfAux_replicate_ne '\n' e 'b' (by decide),
    lastIndexOfAux_replicate_eq, List.length_replicate, Nat.zero_add]
  rw [if_pos ⟨he, by norm_num⟩]

theorem chunkBreakEnd_cex_0 : chunkBreakEnd cexText 0 = 1001 := by
  rw [chunkBreakEnd]
  simp only [CHUNK_SIZE, cexText_length, Nat.zero_add]
  rw [if_pos (by norm_num), lastIndexOf_cex_dot, lastIndexOf_cex_nl 1000 (by norm_num)]
  norm_num
  decide

theorem chunkBreakEnd_cex_801 : chunkBreakEnd cexText 801 = 1802 := by
  rw [chunkBreakEnd]
  simp only [CHUNK_SIZE, cexText_length]
  rw [if_pos (by norm_num), lastIndexOf_cex_dot, lastIndexOf_cex_nl 1801 (by norm_num)]
  norm_num
  decide

theorem chunkBreakEnd_cex_1602 : chunkBreakEnd cexText 1602 = 2400 := by
  rw [chunkBreakEnd]
  simp only [CHUNK_SIZE, cexText_length]
  rw [if_pos (by norm_num), lastIndexOf_cex_dot, lastIndexOf_cex_nl 2602 (by norm_num)]
  norm_num
  decide

theorem chunkBreakEnd_cex_2200 : chunkBreakEnd cexText 2200 = 3200 := by
  rw [chunkBreakEnd]
  simp only [CHUNK_SIZE, cexText_length]
  rw [if_neg (by norm_num)]

theorem cex_slice_0 : 'a' ∈ jsSlice cexText 0 1001 := by
  simp only [cexText, jsSlice, List.take_append_eq_append_take, List.take_replicate,
    List.length_replicate, List.length_append, List.drop_zero]
  norm_num

theorem cex_slice_801 : jsSlice cexText 801 1802 = List.replicate 1001 '\n' := by
  simp only [cexText, jsSlice, List.take_append_eq_append_take,
    List.drop_append_eq_append_drop, List.take_replicate, List.drop_replicate,
    List.length_replicate, List.length_append, List.length_take]
  norm_num

theorem cex_slice_1602 : jsSlice cexText 1602 2400 = List.replicate 798 '\n' := by
  simp only [cexText, jsSlice, List.take_append_eq_append_take,
    List.drop_append_eq_append_drop, List.take_replicate, List.drop_replicate,
    List.length_replicate, List.length_append, List.length_take]
  norm_num

theorem cex_slice_2200 : 'b' ∈ jsSlice cexText 2200 3200 := by
  simp only [cexText, jsSlice, List.take_append_eq_append_take,
    List.drop_append_eq_append_drop, List.take_replicate, List.drop_replicate,
    List.length_replicate, List.length_append, List.length_take]
  norm_num

theorem cex_content_0 : (jsTrim (jsSlice cexText 0 1001)).isEmpty = false := by
  rw [List.isEmpty_eq_false]
  intro hnil
  have := jsTrim_eq_nil hnil 'a' cex_slice_0
  exact absurd this (by decide)

theorem cex_content_801 : (jsTrim (jsSlice cexText 801 1802)).isEmpty = true := by
  rw [cex_slice_801, List.isEmpty_iff]
  apply jsTrim_eq_nil_of_all
  intro c hc
  rw [(List.mem_replicate.mp hc).2]
  decide

theorem cex_content_1602 : (jsTrim (jsSlice cexText 1602 2400)).isEmpty = true := by
  rw [cex_slice_1602, List.isEmpty_iff]
  apply jsTrim_eq_nil_of_all
  intro c hc
  rw [(List.mem_replicate.mp hc).2]
  decide

theorem cex_content_2200 : (jsTrim (jsSlice cexText 2200 3200)).isEmpty = false := by
  rw [List.isEmpty_eq_false]
  intro hnil
  have := jsTrim_eq_nil hnil 'b' cex_slice_2200
  exact absurd this (by decide)

theorem chunkLoopGo_step (text : List Char) (hs : List Heading) (s fuel : Nat)
    (hlt : s < text.length) :
    chunkLoopGo text hs s (fuel + 1) =
      if (jsTrim (jsSlice text s (chunkBreakEnd text s))).isEmpty then
        chunkLoopGo text hs (chunkBreakEnd text s - CHUNK_OVERLAP) fuel
      else ⟨s, chunkBreakEnd text s, jsTrim (jsSlice text s (chunkBreakEnd text s)),
            findSectionTitle hs s⟩ :: chunkLoopGo text hs (chunkBreakEnd text s - CHUNK_OVERLAP) fuel := by
  rw [chunkLoopGo, if_pos hlt]

theorem chunkLoopGo_stop (text : List Char) (hs : List Heading) (s fuel : Nat)
    (hge : ¬ s < text.length) :
    chunkLoopGo text hs s (fuel + 1) = [] := by
  rw [chunkLoopGo, if_neg hge]

theorem chunkRecs_cex_shape :
    (chunkRecs cexText).map (fun r => (r.start, r.endPos)) = [(0, 1001), (2200, 3200)] := by
  rw [chunkRecs, cexText_length]
  rw [chunkLoopGo_step _ _ _ _ (by rw [cexText_length]; norm_num)]
  rw [chunkBreakEnd_cex_0, if_neg (by rw [cex_content_0]; exact Bool.false_ne_true)]
  rw [show (1001 : Nat) - CHUNK_OVERLAP = 801 from rfl]
  rw [show (2800 : Nat) = 2799 + 1 from rfl]
  rw [chunkLoopGo_step _ _ _ _ (by rw [cexText_length]; norm_num)]
  rw [chunkBreakEnd_cex_801, if_pos cex_content_801]
  rw [show (1802 : Nat) - CHUNK_OVERLAP = 1602 from rfl]
  rw [show (2799 : Nat) = 2798 + 1 from rfl]
  rw [chunkLoopGo_step _ _ _ _ (by rw [cexText_length]; norm_num)]
  rw [chunkBreakEnd_cex_1602, if_pos cex_content_1602]
  rw [show (2400 : Nat) - CHUNK_OVERLAP = 2200 from rfl]
  rw [show (2798 : Nat) = 2797 + 1 from rfl]
  rw [chunkLoopGo_step _ _ _ _ (by rw [cexText_length]; norm_num)]
  rw [chunkBreakEnd_cex_2200, if_neg (by rw [cex_content_2200]; exact Bool.false_ne_true)]
  rw [show (3200 : Nat) - CHUNK_OVERLAP = 3000 from rfl]
  rw [show (2797 : Nat) = 2796 + 1 from rfl]
  rw [chunkLoopGo_stop _ _ _ _ (by rw [cexText_length]; norm_num)]
  rfl

/-- Counterexample to C4 as stated: `cexText` produces exactly two chunks,
with ranges `[0, 1001)` and `[2200, 3200)`; the text exceeds one chunk, yet
the consecutive chunks' ranges do not overlap at all (two intermediate
all-whitespace chunks were dropped), refuting "consecutive chunks' ranges
overlap by more than 0". -/
theorem C4_overlap_counterexample :
    (chunkRecs cexText).map (fun r => (r.start, r.endPos)) = [(0, 1001), (2200, 3200)] ∧
    ¬ (∀ (k : Nat) (hk : k + 1 < (chunkRecs cexText).length),
        ((chunkRecs cexText).get ⟨k + 1, hk⟩).start <
          min (((chunkRecs cexText).get ⟨k, Nat.lt_of_succ_lt hk⟩).endPos)
            cexText.length) := by
  refine ⟨chunkRecs_cex_shape, ?_⟩
  intro hall
  have hlen2 : (chunkRecs cexText).length = 2 := by
    have h := congrArg List.length chunkRecs_cex_shape
    simpa using h
  have hv0 : ((chunkRecs cexText).get? 0).map (fun r => (r.start, r.endPos)) =
      some (0, 1001) := by
    rw [← List.get?_map, chunkRecs_cex_shape]
    rfl
  have hv1 : ((chunkRecs cexText).get? 1).map (fun r => (r.start, r.endPos)) =
      some (2200, 3200) := by
    rw [← List.get?_map, chunkRecs_cex_shape]
    rfl
  have h0 := hall 0 (by rw [hlen2]; norm_num)
  rw [List.get?_eq_get (show (0 : Nat) < (chunkRecs cexText).length by rw [hlen2]; norm_num)] at hv0
  rw [List.get?_eq_get (show (1 : Nat) < (chunkRecs cexText).length by rw [hlen2]; norm_num)] at hv1
  simp only [Option.map_some', Option.some.injEq, Prod.mk.injEq] at hv0 hv1
  rw [cexText_length] at h0
  have h0x : ((chunkRecs cexText).get ⟨1, by rw [hlen2]; norm_num⟩).start <
      min (((chunkRecs cexText).get ⟨0, by rw [hlen2]; norm_num⟩).endPos) 2800 := h0
  rw [hv1.1, hv0.2] at h0x
  omega

/-! ### C6: section attribution -/

theorem find?_eq_head?_filter {α : Type} (p : α → Bool) :
    ∀ l : List α, l.find? p = (l.filter p).head? := by
  intro l
  induction l with
  | nil => simp
  | cons x xs ih =>
      cases h : p x
      · rw [List.find?_cons_of_neg _ (by simp [h]), List.filter_cons_of_neg (by simp [h]), ih]
      · rw [List.find?_cons_of_pos _ h, List.filter_cons_of_pos h]
        rfl

theorem find?_reverse_eq_getLast?_filter {α : Type} (p : α → Bool) (l : List α) :
    l.reverse.find? p = (l.filter p).getLast? := by
  rw [find?_eq_head?_filter, List.filter_reverse, List.head?_reverse]

theorem headingMatchAt_spec (p : Nat) (suffix : List Char) (hd : Heading) (consumed : Nat)
    (h : headingMatchAt p suffix = some (hd, consumed)) :
    hd.position = p ∧ 1 ≤ consumed := by
  simp only [headingMatchAt] at h
  split at h
  · exact absurd h (by simp)
  · next hhash =>
    split at h
    · exact absurd h (by simp)
    · split at h
      · next c restAfter heq =>
        obtain ⟨h1, h2⟩ := Prod.mk.inj (Option.some.inj h)
        subst h1
        subst h2
        exact ⟨rfl, by omega⟩
      · split at h
        · next d heq2 =>
          obtain ⟨h1, h2⟩ := Prod.mk.inj (Option.some.inj h)
          subst h1
          subst h2
          exact ⟨rfl, by omega⟩
        · exact absurd h (by simp)

theorem scanHeadingsGo_ge :
    ∀ (fuel : Nat) (p : Nat) (suffix : List Char) (b : Bool),
      ∀ h ∈ scanHeadingsGo fuel p suffix b, p ≤ h.position := by
  intro fuel
  induction fuel with
  | zero =>
      intro p suffix b h hh
      rw [scanHeadingsGo] at hh
      exact absurd hh (List.not_mem_nil h)
  | succ n ih =>
      intro p suffix b h hh
      cases suffix with
      | nil =>
          rw [scanHeadingsGo] at hh
          exact absurd hh (List.not_mem_nil h)
      | cons c rest =>
          rw [scanHeadingsGo] at hh
          split at hh
          · split at hh
            · next hd0 consumed heq =>
              obtain ⟨hpos, hcons⟩ := headingMatchAt_spec _ _ _ _ heq
              rcases List.mem_cons.mp hh with rfl | hh
              · omega
              · have := ih _ _ _ h hh
                omega
            · have := ih _ _ _ h hh
              omega
          · have := ih _ _ _ h hh
            omega

theorem scanHeadingsGo_pairwise :
    ∀ (fuel : Nat) (p : Nat) (suffix : List Char) (b : Bool),
      List.Pairwise (fun a b : Heading => a.position < b.position)
        (scanHeadingsGo fuel p suffix b) := by
  intro fuel
  induction fuel with
  | zero =>
      intro p suffix b
      rw [scanHeadingsGo]
      exact List.Pairwise.nil
  | succ n ih =>
      intro p suffix b
      cases suffix with
      | nil =>
          rw [scanHeadingsGo]
          exact List.Pairwise.nil
      | cons c rest =>
          rw [scanHeadingsGo]
          split
          · split
            · next hd0 consumed heq =>
              obtain ⟨hpos, hcons⟩ := headingMatchAt_spec _ _ _ _ heq
              apply List.pairwise_cons.mpr
              constructor
              · intro h' hh'
                have := scanHeadingsGo_ge n _ _ _ h' hh'
                omega
              · exact ih _ _ _
            · exact ih _ _ _
          · exact ih _ _ _

/-- C6: every chunk's section title is the title of the last extracted heading
(level `##` or deeper) whose character offset is at most the chunk's start
offset, and is absent when no heading precedes the chunk; the extracted
headings' offsets are strictly increasing, so "last in the list" is "last in
document order". -/
theorem C6_section_attribution (text : List Char) :
    (∀ r ∈ chunkRecs text,
        r.sectionTitle = (((extractSectionHeadings text).filter
          (fun h => h.position ≤ r.start)).getLast?).map (fun h => h.title)) ∧
    List.Pairwise (fun a b : Heading => a.position < b.position)
      (extractSectionHeadings text) := by
  constructor
  · intro r hr
    have h5 := (chunkLoopGo_mem text (extractSectionHeadings text)
      (text.length + 1) 0 r hr).2.2.2.2
    rw [h5, findSectionTitle, find?_reverse_eq_getLast?_filter]
  · exact scanHeadingsGo_pairwise text.length 0 text true

/-- Witness for C6: the single chunk of `c6txt` carries the section title
"Intro" of the heading at offset 0. -/
theorem C6_witness :
    c6chunk.sectionTitle = (((extractSectionHeadings c6txt).filter
      (fun h => h.position ≤ c6chunk.start)).getLast?).map (fun h => h.title) :=
  (C6_section_attribution c6txt).1 c6chunk (by decide)

/-! ### Processing pipeline: C1 and C3 -/

theorem processChunks_cache (embed : List Char → Except String (List ℚ)) (docId : Nat) :
    ∀ (l : List (List Char × Option (List Char))) (k : Nat) (st : ServerSt),
      (processChunks embed docId l k st).1.cache = st.cache ∧
      (processChunks embed docId l k st).1.docs = st.docs := by
  intro l
  induction l with
  | nil => intro k st; exact ⟨rfl, rfl⟩
  | cons ck rest ih =>
      intro k st
      rw [processChunks]
      cases hemb : embed ck.1 with
      | ok emb =>
          simp only
          exact ih (k + 1) _
      | error e => exact ⟨rfl, rfl⟩

theorem processChunks_error_spec (embed : List Char → Except String (List ℚ)) (docId : Nat) :
    ∀ (l : List (List Char × Option (List Char))) (k : Nat) (st : ServerSt) (i : Nat)
      (msg : String) (hi : i < l.length),
      (∀ j (hj : j < l.length), j < i → ∃ emb, embed (l.get ⟨j, hj⟩).1 = .ok emb) →
      embed (l.get ⟨i, hi⟩).1 = .error msg →
      (processChunks embed docId l k st).2 = some msg ∧
      ∀ c ∈ (processChunks embed docId l k st).1.chunks,
        c ∈ st.chunks ∨ (c.documentId = docId ∧ c.chunkIndex < k + i) := by
  intro l
  induction l with
  | nil =>
      intro k st i msg hi
      exact absurd hi (by simp)
  | cons ck rest ih =>
      intro k st i msg hi hok hfail
      rw [processChunks]
      cases i with
      | zero =>
          have hf : embed ck.1 = .error msg := hfail
          rw [hf]
          exact ⟨rfl, fun c hc => Or.inl hc⟩
      | succ j =>
          obtain ⟨emb, hemb⟩ := hok 0 (by simp) (by omega)
          have h0 : embed ck.1 = .ok emb := hemb
          rw [h0]
          simp only
          have hj : j < rest.length := by
            simp only [List.length_cons] at hi
            omega
          obtain ⟨h2, h3⟩ := ih (k + 1)
            (createDocumentChunkWithMetadata docId ck.1 emb k ck.2 st) j msg hj
            (fun j2 hj2 hj2i => hok (j2 + 1) (by simp only [List.length_cons]; omega) (by omega))
            hfail
          refine ⟨h2, ?_⟩
          intro c hc
          rcases h3 c hc with hcm | hcm
          · simp only [createDocumentChunkWithMetadata] at hcm
            rcases List.mem_append.mp hcm with hcm2 | hcm2
            · exact Or.inl hcm2
            · rcases List.mem_singleton.mp hcm2 with rfl
              refine Or.inr ⟨rfl, ?_⟩
              show k < k + (j + 1)
              omega
          · exact Or.inr ⟨hcm.1, by omega⟩

theorem updateDocumentStatus_mem (id : Nat) (stt : String) (m : Option String)
    (st : ServerSt) :
    ∀ d ∈ (updateDocumentStatus id stt m st).docs, d.id = id →
      d.status = stt ∧
      d.errorMessage = m.bind (fun x => if x = "" then none else some x) := by
  intro d hd hid
  simp only [updateDocumentStatus] at hd
  rcases List.mem_map.mp hd with ⟨d0, hd0, rfl⟩
  by_cases h : d0.id = id
  · rw [if_pos h]
    exact ⟨rfl, rfl⟩
  · rw [if_neg h] at hid
    exact absurd hid h

/-- C3: if embedding or persisting the chunk at index `i` fails (the first
failure of the per-chunk step), the loop aborts: no chunk with index at or
above `i` is persisted for the document, the document transitions to status
"error" carrying the failure's message, and it is never left "completed". -/
theorem C3_chunk_failure_aborts (embed : List Char → Except String (List ℚ))
    (extractTitle : List Char → Option (List Char)) (doc : DocRec) (st : ServerSt)
    (i : Nat) (msg : String)
    (hi : i < (chunkTextWithMetadata doc.content).length)
    (hok : ∀ j (hj : j < (chunkTextWithMetadata doc.content).length), j < i →
        ∃ emb, embed ((chunkTextWithMetadata doc.content).get ⟨j, hj⟩).1 = .ok emb)
    (hfail : embed ((chunkTextWithMetadata doc.content).get ⟨i, hi⟩).1 = .error msg) :
    (processDocument embed extractTitle doc st).2 = some msg ∧
    (∀ d ∈ (processDocument embed extractTitle doc st).1.docs, d.id = doc.id →
        d.status = "error" ∧ d.status ≠ "completed" ∧
        d.errorMessage = (if msg = "" then none else some msg)) ∧
    (∀ c ∈ (processDocument embed extractTitle doc st).1.chunks,
        c.documentId = doc.id → c.chunkIndex < i) := by
  have hmain : ∀ st1 : ServerSt,
      (match processChunks embed doc.id (chunkTextWithMetadata doc.content) 0
          (deleteDocumentChunks doc.id st1) with
        | (st3, none) =>
            ({ updateDocumentStatus doc.id "completed" none
                (updateDocumentChunkCount doc.id
                  (chunkTextWithMetadata doc.content).length st3) with cache := none },
              (none : Option String))
        | (st3, some e) =>
            (updateDocumentStatus doc.id "error" (some e) st3, some e)).2 = some msg ∧
      (∀ d ∈ (match processChunks embed doc.id (chunkTextWithMetadata doc.content) 0
          (deleteDocumentChunks doc.id st1) with
        | (st3, none) =>
            ({ updateDocumentStatus doc.id "completed" none
                (updateDocumentChunkCount doc.id
                  (chunkTextWithMetadata doc.content).length st3) with cache := none },
              (none : Option String))
        | (st3, some e) =>
            (updateDocumentStatus doc.id "error" (some e) st3, some e)).1.docs,
          d.id = doc.id → d.status = "error" ∧ d.status ≠ "completed" ∧
            d.errorMessage = (if msg = "" then none else some msg)) ∧
      (∀ c ∈ (match processChunks embed doc.id (chunkTextWithMetadata doc.content) 0
          (deleteDocumentChunks doc.id st1) with
        | (st3, none) =>
            ({ updateDocumentStatus doc.id "completed" none
                (updateDocumentChunkCount doc.id
                  (chunkTextWithMetadata doc.content).length st3) with cache := none },
              (none : Option String))
        | (st3, some e) =>
            (updateDocumentStatus doc.id "error" (some e) st3, some e)).1.chunks,
          c.documentId = doc.id → c.chunkIndex < i) := by
    intro st1
    obtain ⟨h2, h3⟩ := processChunks_error_spec embed doc.id
      (chunkTextWithMetadata doc.content) 0 (deleteDocumentChunks doc.id st1) i msg hi hok hfail
    rcases hres : processChunks embed doc.id (chunkTextWithMetadata doc.content) 0
      (deleteDocumentChunks doc.id st1) with ⟨st3, r⟩
    rw [hres] at h2 h3
    have hr : r = some msg := h2
    subst hr
    refine ⟨rfl, ?_, ?_⟩
    · intro d hd hid
      obtain ⟨ha, hb⟩ := updateDocumentStatus_mem doc.id "error" (some msg) st3 d hd hid
      refine ⟨ha, by rw [ha]; decide, ?_⟩
      rw [hb]
      rfl
    · intro c hc hcd
      have hc3 : c ∈ st3.chunks := hc
      rcases h3 c hc3 with hm | hm
      · simp only [deleteDocumentChunks] at hm
        have := (List.mem_filter.mp hm).2
        rw [hcd] at this
        simp at this
      · omega
  rw [processDocument]
  cases hext : extractTitle doc.content with
  | none => exact hmain st
  | some t => exact hmain (updateDocumentChapterTitle doc.id t st)

/-- Witness for C3: with a provider that always fails, processing `docA` stops
at chunk 0, the document ends in status "error" with the failure message, and
no chunk is persisted. -/
theorem C3_witness :
    (processDocument embedFailB extNone docA stA).2 = some "boom" ∧
    (∀ d ∈ (processDocument embedFailB extNone docA stA).1.docs, d.id = docA.id →
        d.status = "error" ∧ d.status ≠ "completed" ∧
        d.errorMessage = (if "boom" = "" then none else some "boom")) ∧
    (∀ c ∈ (processDocument embedFailB extNone docA stA).1.chunks,
        c.documentId = docA.id → c.chunkIndex < 0) :=
  C3_chunk_failure_aborts embedFailB extNone docA stA 0 "boom" (by decide)
    (fun j hj hj0 => absurd hj0 (by omega)) rfl

/-- C1 (amended): `processDocument` invalidates the chunk cache exactly on the
success path; on the error path (the catch block that sets status "error") the
cache is left unchanged, not invalidated. -/
theorem C1_cache_on_success_only (embed : List Char → Except String (List ℚ))
    (extractTitle : List Char → Option (List Char)) (doc : DocRec) (st : ServerSt) :
    ((processDocument embed extractTitle doc st).2 = none →
        (processDocument embed extractTitle doc st).1.cache = none) ∧
    (∀ msg, (processDocument embed extractTitle doc st).2 = some msg →
        (processDocument embed extractTitle doc st).1.cache = st.cache) := by
  have hmain : ∀ st1 : ServerSt, st1.cache = st.cache →
      ((match processChunks embed doc.id (chunkTextWithMetadata doc.content) 0
          (deleteDocumentChunks doc.id st1) with
        | (st3, none) =>
            ({ updateDocumentStatus doc.id "completed" none
                (updateDocumentChunkCount doc.id
                  (chunkTextWithMetadata doc.content).length st3) with cache := none },
              (none : Option String))
        | (st3, some e) =>
            (updateDocumentStatus doc.id "error" (some e) st3, some e)).2 = none →
        (match processChunks embed doc.id (chunkTextWithMetadata doc.content) 0
          (deleteDocumentChunks doc.id st1) with
        | (st3, none) =>
            ({ updateDocumentStatus doc.id "completed" none
                (updateDocumentChunkCount doc.id
                  (chunkTextWithMetadata doc.content).length st3) with cache := none },
              (none : Option String))
        | (st3, some e) =>
            (updateDocumentStatus doc.id "error" (some e) st3, some e)).1.cache = none) ∧
      (∀ msg, (match processChunks embed doc.id (chunkTextWithMetadata doc.content) 0
          (deleteDocumentChunks doc.id st1) with
        | (st3, none) =>
            ({ updateDocumentStatus doc.id "completed" none
                (updateDocumentChunkCount doc.id
                  (chunkTextWithMetadata doc.content).length st3) with cache := none },
              (none : Option String))
        | (st3, some e) =>
            (updateDocumentStatus doc.id "error" (some e) st3, some e)).2 = some msg →
        (match processChunks embed doc.id (chunkTextWithMetadata doc.content) 0
          (deleteDocumentChunks doc.id st1) with
        | (st3, none) =>
            ({ updateDocumentStatus doc.id "completed" none
                (updateDocumentChunkCount doc.id
                  (chunkTextWithMetadata doc.content).length st3) with cache := none },
              (none : Option String))
        | (st3, some e) =>
            (updateDocumentStatus doc.id "error" (some e) st3, some e)).1.cache = st.cache) := by
    intro st1 hst1
    have hcache := (processChunks_cache embed doc.id (chunkTextWithMetadata doc.content) 0
      (deleteDocumentChunks doc.id st1)).1
    rcases hres : processChunks embed doc.id (chunkTextWithMetadata doc.content) 0
      (deleteDocumentChunks doc.id st1) with ⟨st3, r⟩
    rw [hres] at hcache
    have hcache2 : st3.cache = st1.cache := hcache
    cases r with
    | none =>
        refine ⟨fun _ => rfl, ?_⟩
        intro msg h
        exact Option.noConfusion h
    | some e =>
        refine ⟨fun h => Option.noConfusion h, ?_⟩
        intro msg _
        exact hcache2.trans hst1
  rw [processDocument]
  cases hext : extractTitle doc.content with
  | none => exact hmain st rfl
  | some t => exact hmain (updateDocumentChapterTitle doc.id t st) rfl

/-- Witness for C1: a successful run drops the cache. -/
theorem C1_witness : (processDocument embedOkB extNone docA stA).1.cache = none :=
  (C1_cache_on_success_only embedOkB extNone docA stA).1 (by decide)

/-- Counterexample to C1 as stated: when every embedding call fails,
`processDocument` of `docA` over `stA` finishes on the error path (re-throwing
"boom") but the cache snapshot is still present, refuting "the cache is
invalidated on the error path as well". -/
theorem C1_error_path_keeps_cache :
    (processDocument embedFailB extNone docA stA).2 = some "boom" ∧
    (processDocument embedFailB extNone docA stA).1.cache ≠ none := by
  exact ⟨by decide, by decide⟩

/-! ### C2: deletion and the chunk cache -/

/-- C2 (amended): after the delete handler removes a document (cascading to
its chunks), any subsequent search whose cache read does not serve a
pre-existing snapshot — no snapshot, or the snapshot is past the TTL —
returns no result belonging to the deleted document; within the TTL window a
stale snapshot may still return its chunks (see the counterexample). -/
theorem C2_delete_then_search_after_expiry (sim : ChunkRow → ℚ) (limit now id : Nat)
    (st : ServerSt)
    (hstale : ∀ snap, st.cache = some snap → ¬ (now - snap.lastUpdate < CACHE_TTL)) :
    ∀ r ∈ (searchSimilarChunksSt sim limit now (deleteDocumentHandler id st).1).2,
      r.chunk.documentId ≠ id := by
  have hcache : (deleteDocumentHandler id st).1.cache = st.cache := by
    rw [deleteDocumentHandler]
    cases hfind : st.docs.find? (fun d => d.id = id) with
    | none => rfl
    | some d0 => rfl
  have hdocs : ∀ d ∈ (deleteDocumentHandler id st).1.docs, ¬ d.id = id := by
    rw [deleteDocumentHandler]
    cases hfind : st.docs.find? (fun d => d.id = id) with
    | none =>
        simp only
        intro d hd
        have := List.find?_eq_none.mp hfind d hd
        simpa using this
    | some d0 =>
        simp only [deleteDocument]
        intro d hd
        have := (List.mem_filter.mp hd).2
        simpa using this
  have hsnap : (getCachedChunksAndDocs now (deleteDocumentHandler id st).1).2 =
      buildCacheSnap now (deleteDocumentHandler id st).1 := by
    rw [getCachedChunksAndDocs]
    cases hc : (deleteDocumentHandler id st).1.cache with
    | none => rfl
    | some snap =>
        rw [hcache] at hc
        simp only
        rw [if_neg (hstale snap hc)]
  intro r hr hrid
  have hr2 : r ∈ searchCore sim (getCachedChunksAndDocs now (deleteDocumentHandler id st).1).2.docs
      (mkRat 3 10) limit (getCachedChunksAndDocs now (deleteDocumentHandler id st).1).2.chunks := hr
  rw [hsnap] at hr2
  have hchunk := mem_searchCore_chunk sim _ _ limit _ r hr2
  simp only [buildCacheSnap] at hchunk
  have h2 := (List.mem_filter.mp hchunk).2
  rw [Bool.and_eq_true] at h2
  obtain ⟨d, hd, hdid⟩ := List.any_eq_true.mp h2.2
  have hd2 : d ∈ (deleteDocumentHandler id st).1.docs := (List.mem_filter.mp hd).1
  apply hdocs d hd2
  rw [hrid] at hdid
  simpa using hdid

/-- Witness for C2: on `stB` (no cache snapshot), deleting document 1 and then
searching returns `rB`, whose chunk belongs to the surviving document 2, so it
does not belong to the deleted document. -/
theorem C2_witness : rB.chunk.documentId ≠ 1 :=
  C2_delete_then_search_after_expiry simOne 5 0 1 stB
    (fun snap h => Option.noConfusion h) rB (by decide)

/-- Counterexample to C2 as stated: on `stC` the cache snapshot (rebuilt at
time 0) contains the chunk of document 1; the delete handler removes document
1 and its chunk from storage, yet a search at time 1000 — within the
five-minute TTL — still serves the stale snapshot and returns the deleted
document's chunk. -/
theorem C2_stale_cache_returns_deleted :
    (deleteDocumentHandler 1 stC).2 = DeleteOutcome.deleted ∧
    (deleteDocumentHandler 1 stC).1.docs = [] ∧
    (deleteDocumentHandler 1 stC).1.chunks = [] ∧
    (1000 : Nat) - 0 < CACHE_TTL ∧
    ((searchSimilarChunksSt simOne 5 1000 (deleteDocumentHandler 1 stC).1).2.map
      (fun r => r.chunk.documentId)) = [1] := by
  refine ⟨by decide, by decide, by decide, by decide, by decide⟩

/-- Witness for C7: three candidates, one below threshold and two tied; the
output is bounded by the limit and the tied top result sits strictly above the
threshold. -/
theorem C7_witness :
    (searchCore simW [] (mkRat 3 10) 2 [cw0, cw1, cw2]).length ≤ 2 ∧
    mkRat 3 10 < rW.similarity :=
  ⟨(C7_search_ranking simW [] (mkRat 3 10) 2 [cw0, cw1, cw2]).1,
   (C7_search_ranking simW [] (mkRat 3 10) 2 [cw0, cw1, cw2]).2.2.1 rW (by decide)⟩

/-! ### C8 and C10: cosine similarity over exact reals -/

theorem dotL_cons (x y : ℝ) (xs ys : List ℝ) :
    dotL (x :: xs) (y :: ys) = x * y + dotL xs ys := by
  simp [dotL]

theorem sumSq_cons (x : ℝ) (xs : List ℝ) : sumSq (x :: xs) = x * x + sumSq xs := by
  simp [sumSq, dotL]

theorem foldl_sq_eq (a : List ℝ) :
    a.foldl (fun sum val => sum + val * val) 0 = sumSq a := by
  have hgen : ∀ (l : List ℝ) (init : ℝ),
      l.foldl (fun sum val => sum + val * val) init = init + sumSq l := by
    intro l
    induction l with
    | nil => intro init; simp [sumSq, dotL]
    | cons x xs ih =>
        intro init
        rw [List.foldl_cons, ih, sumSq_cons]
        ring
  rw [hgen]
  ring

theorem dotL_map_div (c d : ℝ) :
    ∀ (a b : List ℝ),
      dotL (a.map (fun v => v / c)) (b.map (fun v => v / d)) = dotL a b / (c * d) := by
  intro a
  induction a with
  | nil => intro b; simp [dotL]
  | cons x xs ih =>
      intro b
      cases b with
      | nil => simp [dotL]
      | cons y ys =>
          rw [List.map_cons, List.map_cons, dotL_cons, dotL_cons, ih ys,
            div_mul_div_comm, div_add_div_same]

/-- C8: `calculateCosineSimilarity` throws a hard error whenever the two
vectors differ in length — it never truncates or pads — and on equal lengths
it returns 0 when either vector's norm is 0, and the dot product over the
product of norms otherwise. -/
theorem C8_cosine_contract (a b : List ℝ) :
    (a.length ≠ b.length →
        calculateCosineSimilarity a b = .error "Vectors must have the same length") ∧
    (a.length = b.length → (Real.sqrt (sumSq a) = 0 ∨ Real.sqrt (sumSq b) = 0) →
        calculateCosineSimilarity a b = .ok 0) ∧
    (a.length = b.length → Real.sqrt (sumSq a) ≠ 0 → Real.sqrt (sumSq b) ≠ 0 →
        calculateCosineSimilarity a b =
          .ok (dotL a b / (Real.sqrt (sumSq a) * Real.sqrt (sumSq b)))) := by
  refine ⟨?_, ?_, ?_⟩
  · intro h
    simp only [calculateCosineSimilarity]
    rw [if_pos h]
  · intro h hz
    simp only [calculateCosineSimilarity]
    rw [if_neg (fun hne => hne h), if_pos hz]
  · intro h ha hb
    simp only [calculateCosineSimilarity]
    rw [if_neg (fun hne => hne h), if_neg (by push_neg; exact ⟨ha, hb⟩)]

/-- Witness for C8: a length mismatch is a hard error, and a zero vector
yields similarity 0. -/
theorem C8_witness :
    calculateCosineSimilarity [(1 : ℝ), 0] [1] = .error "Vectors must have the same length" ∧
    calculateCosineSimilarity [(0 : ℝ)] [1] = .ok 0 :=
  ⟨(C8_cosine_contract [(1 : ℝ), 0] [1]).1 (by simp),
   (C8_cosine_contract [(0 : ℝ)] [1]).2.1 (by simp)
     (Or.inl (by norm_num [sumSq, dotL]))⟩

theorem dotProduct_eq_dotL (a b : List ℝ) : dotProduct a b = dotL a b := rfl

/-- C10: over exact real arithmetic, for equal-length vectors with non-zero
norms, the direct cosine computation equals the optimized path: the dot
product of the two normalized vectors. -/
theorem C10_normalized_dot_refinement (a b : List ℝ) (hlen : a.length = b.length)
    (ha : Real.sqrt (sumSq a) ≠ 0) (hb : Real.sqrt (sumSq b) ≠ 0) :
    calculateCosineSimilarity a b =
      .ok (dotProduct (normalizeEmbedding a) (normalizeEmbedding b)) := by
  have hna : normalizeEmbedding a = a.map (fun v => v / Real.sqrt (sumSq a)) := by
    simp only [normalizeEmbedding, foldl_sq_eq]
  have hnb : normalizeEmbedding b = b.map (fun v => v / Real.sqrt (sumSq b)) := by
    simp only [normalizeEmbedding, foldl_sq_eq]
  rw [hna, hnb, dotProduct_eq_dotL, dotL_map_div]
  simp only [calculateCosineSimilarity]
  rw [if_neg (fun hne => hne hlen), if_neg (by push_neg; exact ⟨ha, hb⟩)]

/-- Witness for C10: the refinement instantiated at the one-component unit
vectors. -/
theorem C10_witness :
    calculateCosineSimilarity [(1 : ℝ)] [1] =
      .ok (dotProduct (normalizeEmbedding [(1 : ℝ)]) (normalizeEmbedding [1])) :=
  C10_normalized_dot_refinement [1] [1] rfl
    (by norm_num [sumSq, dotL]) (by norm_num [sumSq, dotL])

/-! ### C9: hybrid fusion -/

theorem find?_map_upd {β : Type} (m : List (CombinedRow β)) (J I : Nat)
    (f : CombinedRow β → β) :
    (m.map (fun x => if x.id = J then (⟨x.id, f x⟩ : CombinedRow β) else x)).find?
        (fun e => e.id = I) =
      (m.find? (fun e => e.id = I)).map
        (fun x => if x.id = J then (⟨x.id, f x⟩ : CombinedRow β) else x) := by
  rw [List.find?_map]
  have hcomp : ((fun e : CombinedRow β => decide (e.id = I)) ∘
      (fun x => if x.id = J then (⟨x.id, f x⟩ : CombinedRow β) else x)) =
      (fun e : CombinedRow β => decide (e.id = I)) := by
    funext x
    by_cases h : x.id = J <;> simp [Function.comp, h]
  rw [hcomp]

theorem find?_append_single {α : Type} (p : α → Bool) (e : α) :
    ∀ m : List α, (m ++ [e]).find? p =
      match m.find? p with
      | some x => some x
      | none => if p e then some e else none := by
  intro m
  induction m with
  | nil =>
      cases h : p e <;> simp [List.find?, h]
  | cons y ys ih =>
      by_cases h : p y
      · rw [List.cons_append, List.find?_cons_of_pos _ h, List.find?_cons_of_pos _ h]
      · rw [List.cons_append, List.find?_cons_of_neg _ h, List.find?_cons_of_neg _ h, ih]

theorem find?_eq_of_mem_nodup {γ : Type} (key : γ → Nat) (l : List γ)
    (hnd : (l.map key).Nodup) (x : γ) (hx : x ∈ l) (I : Nat) (hid : key x = I) :
    l.find? (fun e => key e = I) = some x := by
  induction l with
  | nil => cases hx
  | cons y ys ih =>
      rcases List.mem_cons.mp hx with rfl | hx2
      · rw [List.find?_cons_of_pos _ (by simp [hid])]
      · have hnds : key y ∉ List.map key ys ∧ (List.map key ys).Nodup := by
          rw [List.map_cons, List.nodup_cons] at hnd
          exact hnd
        have hy : ¬ key y = I := by
          intro hyI
          apply hnds.1
          rw [hyI, ← hid]
          exact List.mem_map_of_mem key hx2
        rw [List.find?_cons_of_neg _ (by simp [hy])]
        exact ih hnds.2 hx2

theorem addKeywordStep_find? {β : Type} [Mul β] [Add β] (w2 : β) (r : ScoredRow β)
    (m : List (CombinedRow β)) (I : Nat) :
    ((if m.any (fun x => x.id = r.id) then
        m.map (fun x =>
          if x.id = r.id then (⟨x.id, x.combinedScore + r.score * w2⟩ : CombinedRow β) else x)
      else m ++ [⟨r.id, r.score * w2⟩]).find? (fun e => e.id = I)) =
      if r.id = I then
        match m.find? (fun e => e.id = I) with
        | some e => some ⟨e.id, e.combinedScore + r.score * w2⟩
        | none => some ⟨r.id, r.score * w2⟩
      else m.find? (fun e => e.id = I) := by
  by_cases hany : m.any (fun x => x.id = r.id) = true
  · rw [if_pos hany, find?_map_upd]
    by_cases hI : r.id = I
    · rw [if_pos hI]
      cases hfm : m.find? (fun e => e.id = I) with
      | none =>
          exfalso
          obtain ⟨x, hx, hxid⟩ := List.any_eq_true.mp hany
          apply List.find?_eq_none.mp hfm x hx
          simp only [decide_eq_true_eq] at hxid ⊢
          rw [hxid, hI]
      | some e =>
          have hei : e.id = I := by simpa using List.find?_some hfm
          simp only [Option.map_some']
          rw [if_pos (hei.trans hI.symm)]
    · rw [if_neg hI]
      cases hfm : m.find? (fun e => e.id = I) with
      | none => simp
      | some e =>
          have hei : e.id = I := by simpa using List.find?_some hfm
          simp only [Option.map_some']
          rw [if_neg (fun hh => hI (by rw [← hh]; exact hei))]
  · rw [if_neg hany, find?_append_single]
    by_cases hI : r.id = I
    · rw [if_pos hI]
      cases hfm : m.find? (fun e => e.id = I) with
      | none => simp [hI]
      | some e =>
          exfalso
          apply hany
          have hei : e.id = I := by simpa using List.find?_some hfm
          refine List.any_eq_true.mpr ⟨e, List.mem_of_find?_eq_some hfm, ?_⟩
          simp only [decide_eq_true_eq]
          rw [hei, hI]
    · rw [if_neg hI]
      cases hfm : m.find? (fun e => e.id = I) with
      | none => simp [hI]
      | some e => simp

theorem addKeywordRows_find? {β : Type} [Mul β] [Add β] (w2 : β) :
    ∀ (rows : List (ScoredRow β)) (m : List (CombinedRow β)) (I : Nat),
      (rows.map (fun r => r.id)).Nodup →
      (addKeywordRows w2 rows m).find? (fun e => e.id = I) =
        match rows.find? (fun r => r.id = I) with
        | some r =>
            match m.find? (fun e => e.id = I) with
            | some e => some ⟨e.id, e.combinedScore + r.score * w2⟩
            | none => some ⟨r.id, r.score * w2⟩
        | none => m.find? (fun e => e.id = I) := by
  intro rows
  induction rows with
  | nil =>
      intro m I _
      simp [addKeywordRows]
  | cons r rest ih =>
      intro m I hnd
      have hnds : r.id ∉ rest.map (fun x => x.id) ∧
          (rest.map (fun x => x.id)).Nodup := by
        rw [List.map_cons, List.nodup_cons] at hnd
        exact hnd
      have hstep : addKeywordRows w2 (r :: rest) m = addKeywordRows w2 rest
          (if m.any (fun x => x.id = r.id) then
            m.map (fun x =>
              if x.id = r.id then (⟨x.id, x.combinedScore + r.score * w2⟩ : CombinedRow β) else x)
          else m ++ [⟨r.id, r.score * w2⟩]) := by
        simp [addKeywordRows]
      rw [hstep, ih _ I hnds.2, addKeywordStep_find?]
      by_cases hI : r.id = I
      · have hrest : rest.find? (fun x => x.id = I) = none := by
          rw [List.find?_eq_none]
          intro x hx
          simp only [decide_eq_true_eq]
          intro hxid
          apply hnds.1
          rw [hI, ← hxid]
          exact List.mem_map_of_mem _ hx
        rw [hrest, if_pos hI, List.find?_cons_of_pos _ (by simp [hI])]
      · rw [if_neg hI, List.find?_cons_of_neg _ (by simp [hI])]

theorem addSemanticRows_aux {β : Type} [Mul β] (w1 : β) :
    ∀ (rows : List (ScoredRow β)) (acc : List (CombinedRow β)),
      (rows.map (fun r => r.id)).Nodup →
      (∀ r ∈ rows, acc.any (fun x => x.id = r.id) = false) →
      rows.foldl (fun m r => jsMapSet m ⟨r.id, r.score * w1⟩) acc =
        acc ++ rows.map (fun r => (⟨r.id, r.score * w1⟩ : CombinedRow β)) := by
  intro rows
  induction rows with
  | nil => intro acc _ _; simp
  | cons r rest ih =>
      intro acc hnd hdisj
      have hnds : r.id ∉ rest.map (fun x => x.id) ∧
          (rest.map (fun x => x.id)).Nodup := by
        rw [List.map_cons, List.nodup_cons] at hnd
        exact hnd
      rw [List.foldl_cons]
      have hstep : jsMapSet acc ⟨r.id, r.score * w1⟩ = acc ++ [⟨r.id, r.score * w1⟩] := by
        rw [jsMapSet, if_neg (by
          rw [hdisj r (List.mem_cons_self r rest)]
          exact Bool.false_ne_true)]
      rw [hstep]
      have hdisj2 : ∀ r2 ∈ rest,
          ((acc ++ [(⟨r.id, r.score * w1⟩ : CombinedRow β)]).any
            (fun x => x.id = r2.id)) = false := by
        intro r2 hr2
        rw [List.any_append]
        have h1 := hdisj r2 (List.mem_cons_of_mem r hr2)
        have h2 : ([(⟨r.id, r.score * w1⟩ : CombinedRow β)].any
            (fun x => x.id = r2.id)) = false := by
          simp only [List.any_cons, List.any_nil, Bool.or_false]
          simp only [decide_eq_false_iff_not]
          intro hh
          apply hnds.1
          rw [hh]
          exact List.mem_map_of_mem _ hr2
        rw [h1, h2]
        rfl
      have hih := ih (acc ++ [(⟨r.id, r.score * w1⟩ : CombinedRow β)]) hnds.2 hdisj2
      rw [hih]
      simp

theorem addSemanticRows_find? {β : Type} [Mul β] (w1 : β) (sem : List (ScoredRow β))
    (hnd : (sem.map (fun r => r.id)).Nodup) (I : Nat) :
    (addSemanticRows w1 sem).find? (fun e => e.id = I) =
      (sem.find? (fun r => r.id = I)).map
        (fun r => (⟨r.id, r.score * w1⟩ : CombinedRow β)) := by
  have h := addSemanticRows_aux w1 sem [] hnd (fun r _ => rfl)
  rw [addSemanticRows, h, List.nil_append, List.find?_map]
  congr 1

/-- C9: the hybrid fusion is keyed by chunk id — a chunk in both candidate
sets combines `semantic × w1 + keyword × w2`, a chunk in exactly one set gets
exactly that weighted term — and the final output is the top `limit`
candidates by descending combined score. -/
theorem C9_hybrid_fusion {β : Type} [LinearOrder β] [Mul β] [Add β] (w1 w2 : β)
    (limit : Nat) (sem kw : List (ScoredRow β))
    (hsem : (sem.map (fun r => r.id)).Nodup) (hkw : (kw.map (fun r => r.id)).Nodup) :
    (∀ s ∈ sem, ∀ k ∈ kw, s.id = k.id →
        (hybridCombine w1 w2 sem kw).find? (fun e => e.id = s.id) =
          some ⟨s.id, s.score * w1 + k.score * w2⟩) ∧
    (∀ s ∈ sem, (∀ k ∈ kw, k.id ≠ s.id) →
        (hybridCombine w1 w2 sem kw).find? (fun e => e.id = s.id) =
          some ⟨s.id, s.score * w1⟩) ∧
    (∀ k ∈ kw, (∀ s ∈ sem, s.id ≠ k.id) →
        (hybridCombine w1 w2 sem kw).find? (fun e => e.id = k.id) =
          some ⟨k.id, k.score * w2⟩) ∧
    ((hybridSearchRank w1 w2 limit sem kw).length ≤ limit ∧
      List.Pairwise (fun a b => b.combinedScore ≤ a.combinedScore)
        (hybridSearchRank w1 w2 limit sem kw) ∧
      ∀ e ∈ hybridCombine w1 w2 sem kw, e ∉ hybridSearchRank w1 w2 limit sem kw →
        (hybridSearchRank w1 w2 limit sem kw).length = limit ∧
        ∀ o ∈ hybridSearchRank w1 w2 limit sem kw, e.combinedScore ≤ o.combinedScore) := by
  refine ⟨?_, ?_, ?_, ?_⟩
  · intro s hs k hk hid
    have h1 : sem.find? (fun r => r.id = s.id) = some s :=
      find?_eq_of_mem_nodup (fun r => r.id) sem hsem s hs s.id rfl
    have h2 : kw.find? (fun r => r.id = s.id) = some k :=
      find?_eq_of_mem_nodup (fun r => r.id) kw hkw k hk s.id hid.symm
    rw [hybridCombine, addKeywordRows_find? w2 kw _ s.id hkw, h2,
      addSemanticRows_find? w1 sem hsem s.id, h1]
    rfl
  · intro s hs hnok
    have h1 : sem.find? (fun r => r.id = s.id) = some s :=
      find?_eq_of_mem_nodup (fun r => r.id) sem hsem s hs s.id rfl
    have h2 : kw.find? (fun r => r.id = s.id) = none := by
      rw [List.find?_eq_none]
      intro k hk
      simpa using hnok k hk
    rw [hybridCombine, addKeywordRows_find? w2 kw _ s.id hkw, h2,
      addSemanticRows_find? w1 sem hsem s.id, h1]
    rfl
  · intro k hk hnos
    have h1 : sem.find? (fun r => r.id = k.id) = none := by
      rw [List.find?_eq_none]
      intro s hs
      simpa using hnos s hs
    have h2 : kw.find? (fun r => r.id = k.id) = some k :=
      find?_eq_of_mem_nodup (fun r => r.id) kw hkw k hk k.id rfl
    rw [hybridCombine, addKeywordRows_find? w2 kw _ k.id hkw, h2,
      addSemanticRows_find? w1 sem hsem k.id, h1]
    rfl
  · exact sortTake_topK (fun e : CombinedRow β => e.combinedScore)
      (hybridCombine w1 w2 sem kw) limit

/-- Witness for C9: chunk 2 appears in both candidate sets and its combined
score accumulates both weighted contributions. -/
theorem C9_witness :
    (hybridCombine (mkRat 7 10) (mkRat 3 10) semW kwW).find?
        (fun e => e.id = (⟨2, mkRat 1 2⟩ : ScoredRow ℚ).id) =
      some ⟨(⟨2, mkRat 1 2⟩ : ScoredRow ℚ).id, mkRat 1 2 * mkRat 7 10 + 2 * mkRat 3 10⟩ :=
  (C9_hybrid_fusion (mkRat 7 10) (mkRat 3 10) 5 semW kwW (by decide) (by decide)).1
    ⟨2, mkRat 1 2⟩ (by decide) ⟨2, 2⟩ (by decide) rfl

end BookChat
